import Mathlib

/-!
Verification development for the trend-following backtesting engine in
`backtest_functions.py` (functions `update_position`, `trend_following`,
`max_drawdown`, `return_metrics`, `grid_search`).

Modelling conventions.

* A pandas price column with no missing data is a `List ℚ`; a derived column
  that can contain `NaN` entries (rolling means during warm-up, shifted
  positions, percent changes, cumulative products) is a `List (Option ℚ)`
  where `none` stands for `NaN`.  Comparisons against `NaN` are `False`,
  exactly as float comparisons against `NaN` are in Python.
* pandas `cumprod`, `cummax`, `.max()` and `.std()` skip `NaN` entries
  (`skipna=True` is their default); the `...Skipna` functions below do the
  same.
* The scalar metrics (`CAGR`, volatility, Sharpe) of `return_metrics` are
  genuinely real-valued (fractional powers, square roots), and divisions by
  zero produce IEEE infinities or `NaN` in numpy.  They are modelled by the
  type `FP` below: a real number, a signed infinity, or `NaN`.
* `rolling(w)` and `ewm(span=w)` require `w ≥ 1` in pandas (they raise
  otherwise); for `w = 0` the model returns an all-missing column
  (resp. a defined but meaningless column), and every theorem that exercises
  these definitions assumes or instantiates a window `≥ 1`.
* Division of rationals by zero is total (`q / 0 = 0`) in Lean while pandas
  would produce `±inf`/`NaN`; it is only ever exercised here on series with
  nonzero divisors, and `pctChange` routes a zero previous price to `none`
  explicitly.
* The module-level mutable `position` variable of the source is threaded
  explicitly: `trend_following` takes the incoming global state and returns
  the final one, and (faithfully to lines 32-33 of the source) resets it to
  `0` before scanning the rows.
-/

/-- Elementwise product of two possibly-missing values: `NaN` is absorbing,
as for float multiplication in pandas. -/
def optMul : Option ℚ → Option ℚ → Option ℚ
  | some a, some b => some (a * b)
  | _, _ => none

/-- pandas `Series.shift(1)`: the first entry becomes missing and every other
entry is the previous value of the series. -/
def shift1 (xs : List ℚ) : List (Option ℚ) :=
  match xs with
  | [] => []
  | _ :: _ => none :: (xs.dropLast.map some)

/-- Tail of `pctChange`: percent change of each element with respect to the
running previous element.  A zero previous price is routed to `none`
(pandas would produce a non-finite float there; no claim exercises it). -/
def pctAux : ℚ → List ℚ → List (Option ℚ)
  | _, [] => []
  | prev, x :: xs => (if prev = 0 then none else some ((x - prev) / prev)) :: pctAux x xs

/-- pandas `Series.pct_change()`: missing at index 0, then
`(x_t - x_(t-1)) / x_(t-1)`. -/
def pctChange : List ℚ → List (Option ℚ)
  | [] => []
  | x :: xs => none :: pctAux x xs

/-- pandas `Series.rolling(w).mean()`: at index `t` the arithmetic mean of the
trailing `w` values, missing while fewer than `w` observations have
accumulated (and everywhere for `w = 0`, where pandas raises instead). -/
def rollingMean (w : ℕ) (xs : List ℚ) : List (Option ℚ) :=
  (List.range xs.length).map (fun t =>
    if 1 ≤ w ∧ w ≤ t + 1 then some (((xs.take (t + 1)).drop (t + 1 - w)).sum / w) else none)

/-- Scan implementing pandas `Series.ewm(span).mean()` with its default
`adjust=True`: `y_t = num_t / den_t` with `num_t = (1-α)·num_(t-1) + x_t`
and `den_t = (1-α)·den_(t-1) + 1`. -/
def ewmAux (a : ℚ) : ℚ → ℚ → List ℚ → List ℚ
  | _, _, [] => []
  | num, den, x :: xs =>
    ((1 - a) * num + x) / ((1 - a) * den + 1) ::
      ewmAux a ((1 - a) * num + x) ((1 - a) * den + 1) xs

/-- pandas `Series.ewm(span=w).mean()` with `α = 2 / (w + 1)`; defined from
the first observation onward (no warm-up gap). -/
def ewmMean (span : ℕ) (xs : List ℚ) : List ℚ :=
  ewmAux (2 / ((span : ℚ) + 1)) 0 0 xs

/-- The Python comparison `close > sma` where `sma` can be `NaN`: false on
`NaN`, otherwise the strict order on the values. -/
def oGT (c : ℚ) : Option ℚ → Prop
  | none => False
  | some s => s < c

instance oGT.dec (c : ℚ) : (o : Option ℚ) → Decidable (oGT c o)
  | none => isFalse (fun h => h)
  | some s => inferInstanceAs (Decidable (s < c))

/-- The Python comparison `close <= sma` where `sma` can be `NaN`: false on
`NaN`. -/
def oLE (c : ℚ) : Option ℚ → Prop
  | none => False
  | some s => c ≤ s

instance oLE.dec (c : ℚ) : (o : Option ℚ) → Decidable (oLE c o)
  | none => isFalse (fun h => h)
  | some s => inferInstanceAs (Decidable (c ≤ s))

/-- Source lines 8-25.  One step of the position state machine: from flat,
enter when the close is strictly above both moving averages (false during
warm-up, when the SMA is missing); from long, exit when the close is at or
below either one; otherwise hold.  The EMA column is never missing. -/
def update_position (pos : ℕ) (close : ℚ) (sma : Option ℚ) (ema : ℚ) : ℕ :=
  if pos = 0 then
    if oGT close sma ∧ ema < close then 1 else pos
  else if pos = 1 then
    if oLE close sma ∨ close ≤ ema then 0 else pos
  else pos

/-- Rows of the dataframe seen by `df.apply(update_position, axis=1)`:
close price, SMA (possibly missing), EMA. -/
def zip3 : List ℚ → List (Option ℚ) → List ℚ → List (ℚ × Option ℚ × ℚ)
  | a :: as, b :: bs, c :: cs => (a, b, c) :: zip3 as bs cs
  | _, _, _ => []

/-- The row-by-row scan performed by `df.apply(update_position, axis=1)`:
threads the (reset) global `position` through the rows and records the
value returned at each row. -/
def applySignals : ℕ → List (ℚ × Option ℚ × ℚ) → List ℕ
  | _, [] => []
  | pos, (c, s, e) :: rest =>
    update_position pos c s e :: applySignals (update_position pos c s e) rest

/-- The columns of the dataframe returned by `trend_following`: the (copied)
price column, the two indicator columns, the raw signal series produced by
the `apply` call, the `position` column (the raw signals shifted by one
period) and the strategy-return column. -/
structure TFFrame where
  prices : List ℚ
  smaCol : List (Option ℚ)
  emaCol : List ℚ
  rawSignals : List ℕ
  positionCol : List (Option ℚ)
  strategyCol : List (Option ℚ)
deriving Repr, DecidableEq

/-- Source lines 27-47.  `gpos` is the incoming value of the module-level
`position` variable; the function resets it to `0` (lines 32-33), works on a
copy of the input frame (line 35), computes the two indicator columns, scans
the rows for raw signals, shifts them by one period into the `position`
column (line 43) and multiplies with the percent price change (line 45).
The second component is the value the global variable holds afterwards. -/
def trend_following (gpos : ℕ) (prices : List ℚ) (window : ℕ) : TFFrame × ℕ :=
  let smaCol := rollingMean window prices
  let emaCol := ewmMean window prices
  let sigs := applySignals 0 (zip3 prices smaCol emaCol)
  let posCol := shift1 (sigs.map (fun n : ℕ => (n : ℚ)))
  let strat := List.zipWith optMul (pctChange prices) posCol
  (⟨prices, smaCol, emaCol, sigs, posCol, strat⟩, sigs.getLastD 0)

/-- Running product of the defined entries, `NaN` entries preserved in place
and skipped, as pandas `cumprod` does. -/
def cumprodAux : ℚ → List (Option ℚ) → List (Option ℚ)
  | _, [] => []
  | acc, none :: xs => none :: cumprodAux acc xs
  | acc, some x :: xs => some (acc * x) :: cumprodAux (acc * x) xs

/-- pandas `Series.cumprod()` (default `skipna=True`). -/
def cumprodSkipna (xs : List (Option ℚ)) : List (Option ℚ) :=
  cumprodAux 1 xs

/-- Running maximum of the defined entries, `NaN` entries preserved in place
and skipped, as pandas `cummax` does. -/
def cummaxAux : Option ℚ → List (Option ℚ) → List (Option ℚ)
  | _, [] => []
  | st, none :: xs => none :: cummaxAux st xs
  | st, some x :: xs =>
    some (match st with | none => x | some s => max s x) ::
      cummaxAux (some (match st with | none => x | some s => max s x)) xs

/-- pandas `Series.cummax()` (default `skipna=True`). -/
def cummaxSkipna (xs : List (Option ℚ)) : List (Option ℚ) :=
  cummaxAux none xs

/-- Max of two possibly-missing values with `none` as identity; the fold
state of pandas `Series.max()`. -/
def omax : Option ℚ → Option ℚ → Option ℚ
  | none, b => b
  | some a, none => some a
  | some a, some b => some (max a b)

/-- pandas `Series.max()` (default `skipna=True`): the maximum of the defined
entries, `NaN` when there are none. -/
def listMaxSkipna (xs : List (Option ℚ)) : Option ℚ :=
  xs.foldl omax none

/-- Source line 51 (and line 67): the cumulative-return column
`(1 + r).cumprod() - 1`. -/
def cumulative_return (rets : List (Option ℚ)) : List (Option ℚ) :=
  (cumprodSkipna (rets.map (Option.map (fun r => 1 + r)))).map (Option.map (fun p => p - 1))

/-- Source line 52: the drawdown column
`1 - (1 + cum) / (1 + cum.cummax())`. -/
def drawdown (rets : List (Option ℚ)) : List (Option ℚ) :=
  List.zipWith (fun c m =>
      match c, m with
      | some c, some m => some (1 - (1 + c) / (1 + m))
      | _, _ => none)
    (cumulative_return rets) (cummaxSkipna (cumulative_return rets))

/-- Source lines 49-54: maximum of the drawdown column. -/
def max_drawdown (rets : List (Option ℚ)) : Option ℚ :=
  listMaxSkipna (drawdown rets)

/-- Modelled from the spec wording of C4: the running peak
"max over all s ≤ t of (1 + cumret_s)" over the defined entries. -/
def peak (cum : List (Option ℚ)) (t : ℕ) : ℚ :=
  (listMaxSkipna ((cum.take (t + 1)).map (Option.map (fun c => 1 + c)))).getD 0

inductive FP : Type where
  | nan : FP
  | inf : Bool → FP
  | val : ℝ → FP

noncomputable instance : DecidableEq FP := Classical.decEq FP

/-- IEEE addition on the modelled scalars. -/
noncomputable def FP.add : FP → FP → FP
  | nan, _ => nan
  | _, nan => nan
  | inf s, inf t => if s = t then inf s else nan
  | inf s, val _ => inf s
  | val _, inf t => inf t
  | val a, val b => val (a + b)

/-- IEEE subtraction on the modelled scalars. -/
noncomputable def FP.sub : FP → FP → FP
  | nan, _ => nan
  | _, nan => nan
  | inf s, inf t => if s = t then nan else inf s
  | inf s, val _ => inf s
  | val _, inf t => inf !t
  | val a, val b => val (a - b)

/-- IEEE multiplication on the modelled scalars (`∞ · 0 = NaN`). -/
noncomputable def FP.mul : FP → FP → FP
  | nan, _ => nan
  | _, nan => nan
  | inf s, inf t => if s = t then inf true else inf false
  | inf s, val b => if b = 0 then nan else if 0 < b then inf s else inf !s
  | val a, inf t => if a = 0 then nan else if 0 < a then inf t else inf !t
  | val a, val b => val (a * b)

/-- IEEE division on the modelled scalars: a nonzero finite value divided by
zero is a signed infinity, `0 / 0` and `∞ / ∞` are `NaN` (there is no signed
zero in `ℝ`, so the sign of a zero divisor is always `+`). -/
noncomputable def FP.div : FP → FP → FP
  | nan, _ => nan
  | _, nan => nan
  | val a, val b =>
    if b = 0 then (if a = 0 then nan else if 0 < a then inf true else inf false)
    else val (a / b)
  | val _, inf _ => val 0
  | inf s, val b => if b = 0 then inf s else if 0 < b then inf s else inf !s
  | inf _, inf _ => nan

/-- numpy `x ** e` for a float base and a real exponent: `NaN` base gives
`NaN`; a negative base with the non-integral exponents used here gives `NaN`;
`0 ** e = ∞` for `e < 0`; `+∞ ** e` follows numpy (`1` at `e = 0`, `0` for
`e < 0`); `-∞` is never exercised by these formulas and is mapped to `NaN`. -/
noncomputable def FP.rpow : FP → ℝ → FP
  | nan, _ => nan
  | val b, e =>
    if b < 0 then nan
    else if b = 0 ∧ e < 0 then inf true
    else val (b ^ e)
  | inf s, e =>
    if s then (if e = 0 then val 1 else if e < 0 then val 0 else inf true) else nan

/-- The strict order used by Python float comparisons: any comparison with
`NaN` is false. -/
def FP.lt : FP → FP → Prop
  | nan, _ => False
  | _, nan => False
  | inf s, inf t => s = false ∧ t = true
  | inf s, val _ => s = false
  | val _, inf t => t = true
  | val a, val b => a < b

noncomputable instance FP.lt.dec : (a b : FP) → Decidable (FP.lt a b)
  | nan, nan => isFalse (fun h => h)
  | nan, inf _ => isFalse (fun h => h)
  | nan, val _ => isFalse (fun h => h)
  | inf _, nan => isFalse (fun h => h)
  | val _, nan => isFalse (fun h => h)
  | inf s, inf t => inferInstanceAs (Decidable (s = false ∧ t = true))
  | inf s, val _ => inferInstanceAs (Decidable (s = false))
  | val _, inf t => inferInstanceAs (Decidable (t = true))
  | val a, val b => inferInstanceAs (Decidable (a < b))

/-- A possibly-missing exact rational seen as a float scalar (`NaN` when
missing). -/
noncomputable def ofOptQ : Option ℚ → FP
  | none => FP.nan
  | some q => FP.val (q : ℝ)

/-- The three sampling frequencies `return_metrics` understands (any other
string would crash the source with an unbound `h`). -/
inductive Freq : Type where
  | daily : Freq
  | hourly : Freq
  | fiveMinute : Freq

/-- Source lines 70-76: periods per year for each frequency. -/
def freqH : Freq → ℕ
  | .daily => 365
  | .hourly => 365 * 24
  | .fiveMinute => 60 / 5 * 365 * 24

/-- pandas `Series.std()` (sample standard deviation, `ddof=1`): `NaN` with
fewer than two observations. -/
noncomputable def seriesStd (xs : List ℚ) : FP :=
  if xs.length < 2 then FP.nan
  else
    FP.val (Real.sqrt
      ((xs.map (fun q : ℚ => ((q : ℝ) -
          (xs.map (fun q : ℚ => (q : ℝ))).sum / (xs.length : ℝ)) ^ 2)).sum /
        ((xs.length : ℝ) - 1)))

/-- The tuple returned by `return_metrics` (source line 92). -/
structure Metrics where
  total_performance : FP
  annualized_return : FP
  annualized_vol : FP
  sharpe : FP
  max_dd : Option ℚ

/-- Source lines 57-92.  `none` models the uncaught `IndexError` raised by
`.iloc[-1]` on an empty frame; otherwise the metric tuple is returned, with
NaN/infinity propagation as in numpy.  `T` is the length of the frame and the
volatility is computed from the price column (line 84). -/
noncomputable def return_metrics (prices : List ℚ) (rets : List (Option ℚ))
    (frequency : Freq) : Option Metrics :=
  let cum := cumulative_return rets
  let T : ℕ := rets.length
  let h : ℕ := freqH frequency
  let n_years : ℝ := (T : ℝ) / (h : ℝ)
  match cum.getLast? with
  | none => none
  | some total =>
    let v_initial : FP := FP.val 100
    let v_final := FP.mul (FP.val 100) (FP.add (FP.val 1) (ofOptQ total))
    let annualized_return := FP.sub (FP.rpow (FP.div v_final v_initial) (1 / n_years)) (FP.val 1)
    let annualized_vol := FP.mul (seriesStd prices) (FP.val (Real.sqrt (h : ℝ)))
    some ⟨ofOptQ total, annualized_return, annualized_vol,
      FP.div annualized_return annualized_vol, max_drawdown rets⟩

/-- The total cumulative return: last entry of the cumulative-return curve
(`NaN` when that entry is undefined). -/
def total_cumulative_return (rets : List (Option ℚ)) : Option ℚ :=
  ((cumulative_return rets).getLast?).join

/-- Spec formula: `final_equity = 100 × (1 + total cumulative return)`. -/
noncomputable def finalEquity (rets : List (Option ℚ)) : FP :=
  FP.mul (FP.val 100) (FP.add (FP.val 1) (ofOptQ (total_cumulative_return rets)))

/-- Spec formula: `CAGR = (final_equity / initial_equity) ^ (1 / (T / h)) - 1`
with `initial_equity = 100` and `h = 365` for daily sampling. -/
noncomputable def cagrSpec (rets : List (Option ℚ)) : FP :=
  FP.sub (FP.rpow (FP.div (finalEquity rets) (FP.val 100))
    (1 / ((rets.length : ℝ) / 365))) (FP.val 1)

/-- Spec formula: annualized volatility is the standard deviation of the raw
price column (not the return column) times `sqrt h`. -/
noncomputable def volSpec (prices : List ℚ) : FP :=
  FP.mul (seriesStd prices) (FP.val (Real.sqrt 365))

/-- Source line 96: the default candidate range `range(10, 201, 10)`. -/
def default_window_range : List ℕ := List.range' 10 20 10

/-- One iteration of the loop of source lines 107-115.  The state carries
`(optimal_window, max_objective_value)`, the `results` list appended on line
111, and the module-level `position` variable threaded through the
`trend_following` call; `none` propagates the `IndexError` that
`return_metrics` raises on an empty frame. -/
noncomputable def gridStep (data : List ℚ)
    (st : ((Option ℕ × FP) × List (ℕ × FP)) × ℕ) (window_size : ℕ) :
    Option (((Option ℕ × FP) × List (ℕ × FP)) × ℕ) :=
  let df := trend_following st.2 data window_size
  (return_metrics data df.1.strategyCol Freq.daily).map (fun m =>
    let objective_value := FP.div m.sharpe (ofOptQ m.max_dd)
    let results := st.1.2 ++ [(window_size, objective_value)]
    if FP.lt st.1.1.2 objective_value then
      (((some window_size, objective_value), results), df.2)
    else ((st.1.1, results), df.2))

/-- The `for` loop of source line 107. -/
noncomputable def gridLoop (data : List ℚ) :
    (((Option ℕ × FP) × List (ℕ × FP)) × ℕ) → List ℕ →
      Option (((Option ℕ × FP) × List (ℕ × FP)) × ℕ)
  | st, [] => some st
  | st, w :: ws =>
    match gridStep data st w with
    | none => none
    | some st' => gridLoop data st' ws

/-- Source lines 96-117: `optimal_window = None`,
`max_objective_value = -inf`, `results = []`, then the loop; line 117 returns
only `optimal_window` (the `results` list is discarded).  The model also
returns the final value of the global `position` variable; `none` is an
uncaught exception. -/
noncomputable def grid_search (g : ℕ) (data : List ℚ) (window_range : List ℕ) :
    Option (Option ℕ × ℕ) :=
  (gridLoop data (((none, FP.inf false), []), g) window_range).map
    (fun st => (st.1.1.1, st.2))

/-- The objective value `sharpe_ratio / max_drawdown` (source line 110) of a
single candidate window; `none` when `return_metrics` raises. -/
noncomputable def candidate_objective (data : List ℚ) (w : ℕ) : Option FP :=
  (return_metrics data (trend_following 0 data w).1.strategyCol Freq.daily).map
    (fun m => FP.div m.sharpe (ofOptQ m.max_dd))

/-- The candidate objective as a scalar (`NaN` in the raising case, which the
bridging lemmas exclude). -/
noncomputable def objectiveD (data : List ℚ) (w : ℕ) : FP :=
  (candidate_objective data w).getD FP.nan

/-- The selection part of the loop in isolation: strictly-greater updates of
`(optimal_window, max_objective_value)` over the candidate list. -/
noncomputable def selectLoop (f : ℕ → FP) : (Option ℕ × FP) → List ℕ → Option ℕ × FP
  | st, [] => st
  | st, w :: ws =>
    if FP.lt st.2 (f w) then selectLoop f (some w, f w) ws else selectLoop f st ws

/-- The first window of the list whose objective equals the target value. -/
noncomputable def firstWith (f : ℕ → FP) (target : FP) : List ℕ → Option ℕ
  | [] => none
  | w :: ws => if f w = target then some w else firstWith f target ws

@[simp] lemma oGT_none (c : ℚ) : oGT c none ↔ False := Iff.rfl

@[simp] lemma oGT_some (c s : ℚ) : oGT c (some s) ↔ s < c := Iff.rfl

@[simp] lemma oLE_none (c : ℚ) : oLE c none ↔ False := Iff.rfl

@[simp] lemma oLE_some (c s : ℚ) : oLE c (some s) ↔ c ≤ s := Iff.rfl

@[simp] lemma pctAux_length (p : ℚ) (xs : List ℚ) : (pctAux p xs).length = xs.length := by
  induction xs generalizing p with
  | nil => rfl
  | cons x xs ih => simp [pctAux, ih]

@[simp] lemma pctChange_length (xs : List ℚ) : (pctChange xs).length = xs.length := by
  cases xs with
  | nil => rfl
  | cons x xs => simp [pctChange]

@[simp] lemma rollingMean_length (w : ℕ) (xs : List ℚ) :
    (rollingMean w xs).length = xs.length := by
  simp [rollingMean]

@[simp] lemma ewmAux_length (a : ℚ) (num den : ℚ) (xs : List ℚ) :
    (ewmAux a num den xs).length = xs.length := by
  induction xs generalizing num den with
  | nil => rfl
  | cons x xs ih => simp [ewmAux, ih]

@[simp] lemma ewmMean_length (span : ℕ) (xs : List ℚ) :
    (ewmMean span xs).length = xs.length := by
  simp [ewmMean]

@[simp] lemma shift1_length (xs : List ℚ) : (shift1 xs).length = xs.length := by
  cases xs with
  | nil => rfl
  | cons x xs => simp [shift1]

@[simp] lemma applySignals_length (p : ℕ) (rows : List (ℚ × Option ℚ × ℚ)) :
    (applySignals p rows).length = rows.length := by
  induction rows generalizing p with
  | nil => rfl
  | cons r rows ih =>
    obtain ⟨c, s, e⟩ := r
    simp [applySignals, ih]

lemma zip3_length (as : List ℚ) (bs : List (Option ℚ)) (cs : List ℚ)
    (h1 : bs.length = as.length) (h2 : cs.length = as.length) :
    (zip3 as bs cs).length = as.length := by
  induction as generalizing bs cs with
  | nil =>
    cases bs <;> cases cs <;> simp_all [zip3]
  | cons a as ih =>
    cases bs with
    | nil => simp at h1
    | cons b bs =>
      cases cs with
      | nil => simp at h2
      | cons c cs =>
        simp only [zip3, List.length_cons] at h1 h2 ⊢
        rw [ih bs cs (by omega) (by omega)]

@[simp] lemma zip3_rows_length (prices : List ℚ) (w : ℕ) :
    (zip3 prices (rollingMean w prices) (ewmMean w prices)).length = prices.length :=
  zip3_length _ _ _ (by simp) (by simp)

@[simp] lemma rawSignals_length (g : ℕ) (prices : List ℚ) (w : ℕ) :
    (trend_following g prices w).1.rawSignals.length = prices.length := by
  simp [trend_following]

@[simp] lemma positionCol_length (g : ℕ) (prices : List ℚ) (w : ℕ) :
    (trend_following g prices w).1.positionCol.length = prices.length := by
  simp [trend_following]

@[simp] lemma strategyCol_length (g : ℕ) (prices : List ℚ) (w : ℕ) :
    (trend_following g prices w).1.strategyCol.length = prices.length := by
  simp [trend_following]

lemma zip3_getElem? (as : List ℚ) (bs : List (Option ℚ)) (cs : List ℚ) (t : ℕ)
    (a : ℚ) (b : Option ℚ) (c : ℚ) (ha : as[t]? = some a) (hb : bs[t]? = some b)
    (hc : cs[t]? = some c) : (zip3 as bs cs)[t]? = some (a, b, c) := by
  induction as generalizing bs cs t with
  | nil => simp at ha
  | cons a0 as ih =>
    cases bs with
    | nil => simp at hb
    | cons b0 bs =>
      cases cs with
      | nil => simp at hc
      | cons c0 cs =>
        cases t with
        | zero =>
          simp only [List.getElem?_cons_zero, Option.some.injEq] at ha hb hc
          simp [zip3, ha, hb, hc]
        | succ t =>
          simp only [List.getElem?_cons_succ] at ha hb hc
          simpa [zip3] using ih bs cs t ha hb hc

lemma shift1_getElem?_zero (xs : List ℚ) (h : xs ≠ []) : (shift1 xs)[0]? = some none := by
  cases xs with
  | nil => exact absurd rfl h
  | cons x xs => simp [shift1]

lemma shift1_getElem?_succ (xs : List ℚ) (t : ℕ) (h : t + 1 < xs.length) :
    (shift1 xs)[t + 1]? = some (some (xs.getD t 0)) := by
  cases xs with
  | nil => simp at h
  | cons x xs =>
    simp only [shift1, List.getElem?_cons_succ, List.getElem?_map, List.getElem?_dropLast]
    rw [if_pos (by simpa using h)]
    have ht : t < (x :: xs).length := by omega
    simp [List.getD_eq_getElem?_getD, List.getElem?_eq_getElem ht]

lemma applySignals_getElem?_zero (p0 : ℕ) (r : ℚ × Option ℚ × ℚ)
    (rows : List (ℚ × Option ℚ × ℚ)) (h : rows[0]? = some r) :
    (applySignals p0 rows)[0]? = some (update_position p0 r.1 r.2.1 r.2.2) := by
  obtain ⟨c, s, e⟩ := r
  cases rows with
  | nil => simp at h
  | cons r0 rows =>
    simp only [List.getElem?_cons_zero, Option.some.injEq] at h
    subst h
    simp [applySignals]

lemma applySignals_getElem?_succ (rows : List (ℚ × Option ℚ × ℚ)) :
    ∀ (p0 t : ℕ) (r : ℚ × Option ℚ × ℚ), rows[t + 1]? = some r →
      (applySignals p0 rows)[t + 1]? =
        some (update_position ((applySignals p0 rows).getD t 0) r.1 r.2.1 r.2.2) := by
  induction rows with
  | nil => intro p0 t r h; simp at h
  | cons r0 rows ih =>
    intro p0 t r h
    obtain ⟨c0, s0, e0⟩ := r0
    simp only [List.getElem?_cons_succ] at h
    cases t with
    | zero =>
      cases rows with
      | nil => simp at h
      | cons r1 rows =>
        simp only [List.getElem?_cons_zero, Option.some.injEq] at h
        obtain ⟨c1, s1, e1⟩ := r1
        subst h
        simp [applySignals]
    | succ t =>
      simp only [applySignals, List.getElem?_cons_succ, List.getD_cons_succ]
      exact ih _ t r h

lemma update_position_zero (c : ℚ) (s : Option ℚ) (e : ℚ) :
    update_position 0 c s e = if oGT c s ∧ e < c then 1 else 0 := by
  simp [update_position]

lemma update_position_one (c : ℚ) (s : Option ℚ) (e : ℚ) :
    update_position 1 c s e = if oLE c s ∨ c ≤ e then 0 else 1 := by
  simp [update_position]

lemma update_position_cases (p : ℕ) (c : ℚ) (s : Option ℚ) (e : ℚ)
    (h : p = 0 ∨ p = 1) : update_position p c s e = 0 ∨ update_position p c s e = 1 := by
  rcases h with h | h <;> subst h
  · rw [update_position_zero]
    split
    · right; rfl
    · left; rfl
  · rw [update_position_one]
    split
    · left; rfl
    · right; rfl

lemma applySignals_mem (rows : List (ℚ × Option ℚ × ℚ)) :
    ∀ p0 : ℕ, (p0 = 0 ∨ p0 = 1) → ∀ x ∈ applySignals p0 rows, x = 0 ∨ x = 1 := by
  induction rows with
  | nil => intro p0 _ x hx; simp [applySignals] at hx
  | cons r rows ih =>
    intro p0 hp x hx
    obtain ⟨c, s, e⟩ := r
    simp only [applySignals, List.mem_cons] at hx
    rcases hx with hx | hx
    · exact hx ▸ update_position_cases p0 c s e hp
    · exact ih _ (update_position_cases p0 c s e hp) x hx

lemma getElem?_getD {α : Type} (l : List α) (n : ℕ) (d : α) (h : n < l.length) :
    l[n]? = some (l.getD n d) := by
  simp [List.getD_eq_getElem?_getD, List.getElem?_eq_getElem h]

lemma getD_map_cast (sigs : List ℕ) (t : ℕ) :
    (sigs.map (fun n : ℕ => (n : ℚ))).getD t 0 = ((sigs.getD t 0 : ℕ) : ℚ) := by
  simp only [List.getD_eq_getElem?_getD, List.getElem?_map]
  cases h : sigs[t]? <;> simp

lemma pctChange_getElem?_zero (prices : List ℚ) (h : prices ≠ []) :
    (pctChange prices)[0]? = some none := by
  cases prices with
  | nil => exact absurd rfl h
  | cons x xs => simp [pctChange]

lemma strategyCol_getElem?_zero (g : ℕ) (prices : List ℚ) (window : ℕ)
    (hne : prices ≠ []) :
    ((trend_following g prices window).1.strategyCol)[0]? = some none := by
  have hpos : ((trend_following g prices window).1.positionCol)[0]? = some none := by
    simp only [trend_following]
    refine shift1_getElem?_zero _ ?_
    intro hnil
    apply hne
    have := congrArg List.length hnil
    simp only [List.length_map, applySignals_length, zip3_rows_length,
      List.length_nil] at this
    exact List.length_eq_zero.mp this
  have hpct := pctChange_getElem?_zero prices hne
  show (List.zipWith optMul (pctChange prices)
    (trend_following g prices window).1.positionCol)[0]? = some none
  rw [List.getElem?_zipWith_eq_some]
  exact ⟨none, none, hpct, hpos, rfl⟩

lemma strategyCol_getElem?_succ (g : ℕ) (prices : List ℚ) (window t : ℕ)
    (ht : t + 1 < prices.length) :
    ((trend_following g prices window).1.strategyCol)[t + 1]? =
      some (optMul ((pctChange prices).getD (t + 1) none)
        (some (((trend_following g prices window).1.rawSignals.getD t 0 : ℕ) : ℚ))) := by
  have hpct : (pctChange prices)[t + 1]? =
      some ((pctChange prices).getD (t + 1) none) :=
    getElem?_getD _ _ _ (by simp [ht])
  have hpos : ((trend_following g prices window).1.positionCol)[t + 1]? =
      some (some (((trend_following g prices window).1.rawSignals.getD t 0 : ℕ) : ℚ)) := by
    simp only [trend_following]
    rw [shift1_getElem?_succ _ t (by simp [ht]), getD_map_cast]
  show (List.zipWith optMul (pctChange prices)
    (trend_following g prices window).1.positionCol)[t + 1]? = _
  rw [List.getElem?_zipWith_eq_some]
  exact ⟨_, _, hpct, hpos, rfl⟩

/-- Claim C1: for every price series and admissible window, every raw
position-signal value produced by the `apply` scan is 0 or 1; the strategy
return at index 0 is missing; and the strategy return at every later index
`t` equals the percent price change at `t` multiplied by the raw signal from
index `t - 1` (the raw signal series shifted forward by one period), so the
return at `t` never depends on the signal computed at `t` itself. -/
theorem claim1_lagged_signal (g : ℕ) (prices : List ℚ) (window : ℕ)
    (hw : 1 ≤ window) :
    (∀ s ∈ (trend_following g prices window).1.rawSignals, s = 0 ∨ s = 1) ∧
    (prices ≠ [] → ((trend_following g prices window).1.strategyCol)[0]? = some none) ∧
    (∀ t : ℕ, t + 1 < prices.length →
      ((trend_following g prices window).1.strategyCol)[t + 1]? =
        some (optMul ((pctChange prices).getD (t + 1) none)
          (some (((trend_following g prices window).1.rawSignals.getD t 0 : ℕ) : ℚ)))) := by
  refine ⟨?_, ?_, ?_⟩
  · intro s hs
    simp only [trend_following] at hs
    exact applySignals_mem _ 0 (Or.inl rfl) s hs
  · exact strategyCol_getElem?_zero g prices window
  · exact fun t ht => strategyCol_getElem?_succ g prices window t ht

/-- Witness for C1 at the concrete series `[1, 2, 3]` with window 1. -/
theorem claim1_lagged_signal_witness :
    ((trend_following 0 [1, 2, 3] 1).1.strategyCol)[0 + 1]? =
      some (optMul ((pctChange [1, 2, 3]).getD (0 + 1) none)
        (some (((trend_following 0 [1, 2, 3] 1).1.rawSignals.getD 0 0 : ℕ) : ℚ))) :=
  (claim1_lagged_signal 0 [1, 2, 3] 1 (by norm_num)).2.2 0 (by norm_num)

/-- Claim C2: the position state machine starts each run flat (0); from flat
it moves to long exactly when the close is strictly above both the SMA and
the EMA (and hence never during warm-up, when the SMA is missing); from long
it moves to flat exactly when the close is at or below the SMA or at or
below the EMA; otherwise it holds its state.  The raw signal column of
`trend_following` is the scan of this step function from state 0 over the
rows. -/
theorem claim2_state_machine :
    (∀ (c e : ℚ) (s : Option ℚ),
      (update_position 0 c s e = 1 ↔ oGT c s ∧ e < c) ∧
      (update_position 0 c s e = 0 ↔ ¬(oGT c s ∧ e < c))) ∧
    (∀ (c e : ℚ) (s : Option ℚ),
      (update_position 1 c s e = 0 ↔ oLE c s ∨ c ≤ e) ∧
      (update_position 1 c s e = 1 ↔ ¬(oLE c s ∨ c ≤ e))) ∧
    (∀ c e : ℚ, update_position 0 c none e = 0) ∧
    (∀ (g : ℕ) (prices : List ℚ) (window : ℕ), prices ≠ [] →
      ((trend_following g prices window).1.rawSignals)[0]? =
        some (update_position 0 (prices.getD 0 0)
          ((rollingMean window prices).getD 0 none) ((ewmMean window prices).getD 0 0))) ∧
    (∀ (g : ℕ) (prices : List ℚ) (window t : ℕ), t + 1 < prices.length →
      ((trend_following g prices window).1.rawSignals)[t + 1]? =
        some (update_position ((trend_following g prices window).1.rawSignals.getD t 0)
          (prices.getD (t + 1) 0) ((rollingMean window prices).getD (t + 1) none)
          ((ewmMean window prices).getD (t + 1) 0))) := by
  refine ⟨?_, ?_, ?_, ?_, ?_⟩
  · intro c e s
    rw [update_position_zero]
    by_cases h : oGT c s ∧ e < c <;> simp [h]
  · intro c e s
    rw [update_position_one]
    by_cases h : oLE c s ∨ c ≤ e <;> simp [h]
  · intro c e
    rw [update_position_zero]
    simp
  · intro g prices window hne
    have h0 : 0 < prices.length := List.length_pos.mpr hne
    have hrow : (zip3 prices (rollingMean window prices) (ewmMean window prices))[0]? =
        some (prices.getD 0 0, (rollingMean window prices).getD 0 none,
          (ewmMean window prices).getD 0 0) :=
      zip3_getElem? _ _ _ 0 _ _ _ (getElem?_getD _ _ _ h0)
        (getElem?_getD _ _ _ (by simp [h0])) (getElem?_getD _ _ _ (by simp [h0]))
    simpa only [trend_following] using applySignals_getElem?_zero 0 _ _ hrow
  · intro g prices window t ht
    have hrow : (zip3 prices (rollingMean window prices) (ewmMean window prices))[t + 1]? =
        some (prices.getD (t + 1) 0, (rollingMean window prices).getD (t + 1) none,
          (ewmMean window prices).getD (t + 1) 0) :=
      zip3_getElem? _ _ _ (t + 1) _ _ _ (getElem?_getD _ _ _ ht)
        (getElem?_getD _ _ _ (by simp [ht])) (getElem?_getD _ _ _ (by simp [ht]))
    simpa only [trend_following] using applySignals_getElem?_succ _ 0 t _ hrow

/-- Witness for C2 at the concrete series `[1, 2, 3]` with window 2. -/
theorem claim2_state_machine_witness :
    ((trend_following 0 ([1, 2, 3] : List ℚ) 2).1.rawSignals)[0 + 1]? =
      some (update_position ((trend_following 0 ([1, 2, 3] : List ℚ) 2).1.rawSignals.getD 0 0)
        (([1, 2, 3] : List ℚ).getD (0 + 1) 0) ((rollingMean 2 ([1, 2, 3] : List ℚ)).getD (0 + 1) none)
        ((ewmMean 2 ([1, 2, 3] : List ℚ)).getD (0 + 1) 0)) :=
  claim2_state_machine.2.2.2.2 0 ([1, 2, 3] : List ℚ) 2 0 (by norm_num)

lemma rollingMean_one (xs : List ℚ) : rollingMean 1 xs = xs.map some := by
  apply List.ext_getElem?
  intro n
  simp only [rollingMean, List.getElem?_map]
  by_cases h : n < xs.length
  · rw [List.getElem?_range h]
    have hcond : 1 ≤ 1 ∧ 1 ≤ n + 1 := by omega
    have hslice : (xs.take (n + 1)).drop n = List.take 1 (xs.drop n) := by
      rw [List.take_drop]
    have hdrop : xs.drop n ≠ [] := by
      intro hnil
      have := congrArg List.length hnil
      simp at this
      omega
    obtain ⟨y, ys, hy⟩ := List.exists_cons_of_ne_nil hdrop
    have hy0 : xs[n]? = some y := by
      have h0 : (xs.drop n)[0]? = some y := by rw [hy]; simp
      rwa [List.getElem?_drop, Nat.add_zero] at h0
    simp only [Option.map_some']
    rw [if_pos hcond, Nat.add_sub_cancel, hslice, hy, hy0]
    norm_num
  · rw [List.getElem?_eq_none (by simpa using h), List.getElem?_eq_none (by omega)]
    rfl

lemma ewmAux_one (xs : List ℚ) : ∀ num den : ℚ, ewmAux 1 num den xs = xs := by
  induction xs with
  | nil => intro num den; rfl
  | cons x xs ih =>
    intro num den
    simp only [ewmAux, ih]
    norm_num

lemma ewmMean_one (xs : List ℚ) : ewmMean 1 xs = xs := by
  have ha : (2 : ℚ) / (((1 : ℕ) : ℚ) + 1) = 1 := by norm_num
  rw [ewmMean, ha, ewmAux_one]

lemma applySignals_self (xs : List ℚ) :
    applySignals 0 (zip3 xs (xs.map some) xs) = List.replicate xs.length 0 := by
  induction xs with
  | nil => rfl
  | cons x xs ih =>
    have hstep : update_position 0 x (some x) x = 0 := by
      rw [update_position_zero, if_neg]
      simp
    simp [zip3, applySignals, hstep, ih, List.replicate_succ]

lemma pctAux_getElem?_at (ys : List ℚ) : ∀ (x : ℚ) (t : ℕ), t < ys.length →
    (pctAux x ys)[t]? = some (if (x :: ys).getD t 0 = 0 then none
      else some (((x :: ys).getD (t + 1) 0 - (x :: ys).getD t 0) / (x :: ys).getD t 0)) := by
  induction ys with
  | nil => intro x t h; simp at h
  | cons y ys ih =>
    intro x t h
    cases t with
    | zero => simp [pctAux]
    | succ t =>
      simp only [pctAux, List.getElem?_cons_succ, List.getD_cons_succ]
      exact ih y t (by simpa using h)

lemma pctChange_getElem?_succ (prices : List ℚ) (t : ℕ) (h : t + 1 < prices.length) :
    (pctChange prices)[t + 1]? =
      some (if prices.getD t 0 = 0 then none
        else some ((prices.getD (t + 1) 0 - prices.getD t 0) / prices.getD t 0)) := by
  cases prices with
  | nil => simp at h
  | cons x xs =>
    simp only [pctChange, List.getElem?_cons_succ]
    exact pctAux_getElem?_at xs x t (by simpa using h)

/-- Counterexample for claim C10: `[1, 2, 3]` is a strictly monotonically
increasing price series; with window 1 the raw position signal is indeed 0
everywhere, but the strategy-return series produced by `trend_following` is
`[NaN, 0, 0]`, not all zero: its first entry is missing (the percent change
and the shifted position are both undefined at index 0), refuting "the
resulting strategy return series is all zero". -/
theorem claim10_counterexample :
    ([1, 2, 3] : List ℚ).Chain' (fun a b => a < b) ∧
    (trend_following 0 ([1, 2, 3] : List ℚ) 1).1.rawSignals = [0, 0, 0] ∧
    (trend_following 0 ([1, 2, 3] : List ℚ) 1).1.strategyCol = [none, some 0, some 0] ∧
    ((trend_following 0 ([1, 2, 3] : List ℚ) 1).1.strategyCol)[0]? = some none ∧
    (none : Option ℚ) ≠ some 0 := by
  refine ⟨by norm_num, ?_, ?_, ?_, by simp⟩
  · norm_num [trend_following, rollingMean, List.range_succ, ewmMean, ewmAux, zip3,
      applySignals, update_position]
  · norm_num [trend_following, rollingMean, List.range_succ, ewmMean, ewmAux, zip3,
      applySignals, update_position, shift1, pctChange, pctAux, optMul]
  · norm_num [trend_following, rollingMean, List.range_succ, ewmMean, ewmAux, zip3,
      applySignals, update_position, shift1, pctChange, pctAux, optMul]

/-- Claim C10 as amended: for every strictly monotonically increasing price
series with window 1, the SMA and EMA columns both equal the price column at
every timestamp, the raw position signal is 0 at every timestamp, and the
strategy-return series is missing (`NaN`) at index 0 and zero at every index
`t ≥ 1` whose previous price is nonzero. -/
theorem claim10_amended (g : ℕ) (prices : List ℚ)
    (hmono : prices.Chain' (fun a b => a < b)) :
    (trend_following g prices 1).1.smaCol = prices.map some ∧
    (trend_following g prices 1).1.emaCol = prices ∧
    (trend_following g prices 1).1.rawSignals = List.replicate prices.length 0 ∧
    (prices ≠ [] → ((trend_following g prices 1).1.strategyCol)[0]? = some none) ∧
    (∀ t, t + 1 < prices.length → prices.getD t 0 ≠ 0 →
      ((trend_following g prices 1).1.strategyCol)[t + 1]? = some (some 0)) := by
  have hsma : (trend_following g prices 1).1.smaCol = prices.map some := by
    simp only [trend_following]
    exact rollingMean_one prices
  have hema : (trend_following g prices 1).1.emaCol = prices := by
    simp only [trend_following]
    exact ewmMean_one prices
  have hsig : (trend_following g prices 1).1.rawSignals = List.replicate prices.length 0 := by
    show applySignals 0 (zip3 prices (rollingMean 1 prices) (ewmMean 1 prices)) = _
    rw [rollingMean_one, ewmMean_one]
    exact applySignals_self prices
  refine ⟨hsma, hema, hsig, strategyCol_getElem?_zero g prices 1, ?_⟩
  intro t ht hnz
  rw [strategyCol_getElem?_succ g prices 1 t ht, hsig]
  have hrep : (List.replicate prices.length (0 : ℕ)).getD t 0 = 0 := by
    rw [List.getD_eq_getElem?_getD, List.getElem?_replicate]
    split <;> rfl
  rw [hrep, List.getD_eq_getElem?_getD, pctChange_getElem?_succ prices t ht, if_neg hnz]
  simp [optMul]

/-- Witness for the amended C10 at the concrete series `[1, 2, 3]`. -/
theorem claim10_amended_witness :
    ((trend_following 0 ([1, 2, 3] : List ℚ) 1).1.strategyCol)[0 + 1]? = some (some 0) :=
  (claim10_amended 0 ([1, 2, 3] : List ℚ) (by norm_num)).2.2.2.2 0 (by norm_num) (by norm_num)

lemma omax_assoc (a b c : Option ℚ) : omax (omax a b) c = omax a (omax b c) := by
  cases a <;> cases b <;> cases c <;> simp [omax, max_assoc]

lemma foldl_omax_eq (l : List (Option ℚ)) :
    ∀ a : Option ℚ, l.foldl omax a = omax a (l.foldl omax none) := by
  induction l with
  | nil => intro a; cases a <;> rfl
  | cons x l ih =>
    intro a
    simp only [List.foldl_cons]
    rw [ih (omax a x), ih (omax none x), ← omax_assoc]
    cases a <;> cases x <;> rfl

lemma listMaxSkipna_cons (x : Option ℚ) (l : List (Option ℚ)) :
    listMaxSkipna (x :: l) = omax x (listMaxSkipna l) := by
  simp only [listMaxSkipna, List.foldl_cons]
  rw [foldl_omax_eq]
  cases x <;> rfl

lemma le_listMaxSkipna (l : List (Option ℚ)) :
    ∀ (t : ℕ) (q : ℚ), l[t]? = some (some q) →
      ∃ M, listMaxSkipna l = some M ∧ q ≤ M := by
  induction l with
  | nil => intro t q h; simp at h
  | cons x l ih =>
    intro t q h
    rw [listMaxSkipna_cons]
    cases t with
    | zero =>
      simp only [List.getElem?_cons_zero, Option.some.injEq] at h
      subst h
      cases hM : listMaxSkipna l with
      | none => exact ⟨q, rfl, le_refl q⟩
      | some m => exact ⟨max q m, rfl, le_max_left q m⟩
    | succ t =>
      simp only [List.getElem?_cons_succ] at h
      obtain ⟨M, hM, hq⟩ := ih t q h
      rw [hM]
      cases x with
      | none => exact ⟨M, rfl, hq⟩
      | some v => exact ⟨max v M, rfl, le_trans hq (le_max_right v M)⟩

lemma listMaxSkipna_mem (l : List (Option ℚ)) :
    ∀ M, listMaxSkipna l = some M → some M ∈ l := by
  induction l with
  | nil => intro M h; simp [listMaxSkipna] at h
  | cons x l ih =>
    intro M h
    rw [listMaxSkipna_cons] at h
    cases x with
    | none =>
      exact List.mem_cons_of_mem _ (ih M h)
    | some v =>
      cases hM : listMaxSkipna l with
      | none =>
        rw [hM] at h
        simp only [omax, Option.some.injEq] at h
        subst h
        exact List.mem_cons_self _ _
      | some m =>
        rw [hM] at h
        simp only [omax, Option.some.injEq] at h
        rcases max_choice v m with hc | hc
        · rw [← h, hc]
          exact List.mem_cons_self _ _
        · have hMm : M = m := by rw [← h, hc]
          rw [hMm]
          exact List.mem_cons_of_mem _ (ih m hM)

lemma listMaxSkipna_map_add_one (l : List (Option ℚ)) :
    listMaxSkipna (l.map (Option.map (fun c => 1 + c))) =
      (listMaxSkipna l).map (fun c => 1 + c) := by
  induction l with
  | nil => rfl
  | cons x l ih =>
    rw [List.map_cons, listMaxSkipna_cons, listMaxSkipna_cons, ih]
    cases x <;> cases listMaxSkipna l <;>
      simp [omax, max_add_add_left]

lemma cumprodAux_getElem?_some (xs : List (Option ℚ)) :
    ∀ (acc : ℚ) (t : ℕ) (v : ℚ), xs[t]? = some (some v) →
      ∃ p, (cumprodAux acc xs)[t]? = some (some p) := by
  induction xs with
  | nil => intro acc t v h; simp at h
  | cons x xs ih =>
    intro acc t v h
    cases t with
    | zero =>
      simp only [List.getElem?_cons_zero, Option.some.injEq] at h
      subst h
      exact ⟨acc * v, by simp [cumprodAux]⟩
    | succ t =>
      simp only [List.getElem?_cons_succ] at h
      cases x with
      | none =>
        obtain ⟨p, hp⟩ := ih acc t v h
        exact ⟨p, by simpa [cumprodAux] using hp⟩
      | some x0 =>
        obtain ⟨p, hp⟩ := ih (acc * x0) t v h
        exact ⟨p, by simpa [cumprodAux] using hp⟩

lemma cumprodAux_mem_pos (xs : List (Option ℚ)) :
    ∀ acc : ℚ, (∀ o ∈ xs, ∀ x : ℚ, o = some x → 0 < x) → 0 < acc →
      ∀ o ∈ cumprodAux acc xs, ∀ p : ℚ, o = some p → 0 < p := by
  induction xs with
  | nil => intro acc _ _ o ho; simp [cumprodAux] at ho
  | cons x xs ih =>
    intro acc hx hacc o ho p hp
    cases x with
    | none =>
      simp only [cumprodAux, List.mem_cons] at ho
      rcases ho with ho | ho
      · rw [ho] at hp; exact absurd hp (by simp)
      · exact ih acc (fun o hmem => hx o (List.mem_cons_of_mem _ hmem)) hacc o ho p hp
    | some x0 =>
      have hx0 : 0 < x0 := hx (some x0) (List.mem_cons_self _ _) x0 rfl
      have hax : 0 < acc * x0 := mul_pos hacc hx0
      simp only [cumprodAux, List.mem_cons] at ho
      rcases ho with ho | ho
      · rw [ho] at hp
        simp only [Option.some.injEq] at hp
        rw [← hp]; exact hax
      · exact ih (acc * x0) (fun o hmem => hx o (List.mem_cons_of_mem _ hmem)) hax o ho p hp

lemma cummaxAux_getElem?_some (xs : List (Option ℚ)) :
    ∀ (st : Option ℚ) (t : ℕ) (v : ℚ), xs[t]? = some (some v) →
      (cummaxAux st xs)[t]? = some (omax st (listMaxSkipna (xs.take (t + 1)))) := by
  induction xs with
  | nil => intro st t v h; simp at h
  | cons x xs ih =>
    intro st t v h
    cases t with
    | zero =>
      simp only [List.getElem?_cons_zero, Option.some.injEq] at h
      subst h
      cases st <;>
        simp [cummaxAux, List.take_succ_cons, List.take_zero, listMaxSkipna_cons,
          listMaxSkipna, omax]
    | succ t =>
      simp only [List.getElem?_cons_succ] at h
      cases x with
      | none =>
        simp only [cummaxAux, List.getElem?_cons_succ]
        rw [ih st t v h]
        simp only [List.take_succ_cons, listMaxSkipna_cons]
        cases st <;> rfl
      | some x0 =>
        simp only [cummaxAux, List.getElem?_cons_succ]
        rw [ih _ t v h]
        simp only [List.take_succ_cons, listMaxSkipna_cons, ← omax_assoc]
        congr 1
        cases st <;> rfl

lemma cumulative_return_pos (rets : List (Option ℚ))
    (hdef : ∀ o ∈ rets, ∀ r : ℚ, o = some r → -1 < r) :
    ∀ o ∈ cumulative_return rets, ∀ c : ℚ, o = some c → 0 < 1 + c := by
  intro o ho c hc
  simp only [cumulative_return, List.mem_map] at ho
  obtain ⟨o', ho', rfl⟩ := ho
  have hfac : ∀ o ∈ rets.map (Option.map (fun r => 1 + r)), ∀ x : ℚ, o = some x → 0 < x := by
    intro o hmem x hx
    simp only [List.mem_map] at hmem
    obtain ⟨o0, ho0, rfl⟩ := hmem
    cases o0 with
    | none => simp at hx
    | some r =>
      simp only [Option.map_some', Option.some.injEq] at hx
      have := hdef (some r) ho0 r rfl
      rw [← hx]; linarith
  have := cumprodAux_mem_pos _ 1 hfac one_pos o' ho'
  cases o' with
  | none => simp at hc
  | some p =>
    simp only [Option.map_some', Option.some.injEq] at hc
    have hp := this p rfl
    rw [← hc]; linarith

lemma cumulative_return_defined (rets : List (Option ℚ))
    (hdef : ∀ o ∈ rets, ∃ r : ℚ, o = some r ∧ -1 < r) :
    ∀ t, t < rets.length → ∃ c, (cumulative_return rets)[t]? = some (some c) := by
  intro t ht
  have hr : ∃ r, rets[t]? = some (some r) := by
    cases h : rets[t]? with
    | none => rw [List.getElem?_eq_none_iff] at h; omega
    | some o =>
      have hmem : o ∈ rets := List.getElem?_mem h
      obtain ⟨r, hro, _⟩ := hdef o hmem
      exact ⟨r, by rw [hro]⟩
  obtain ⟨r, hr⟩ := hr
  have hmap : (rets.map (Option.map (fun r => 1 + r)))[t]? = some (some (1 + r)) := by
    rw [List.getElem?_map, hr]; rfl
  obtain ⟨p, hp⟩ := cumprodAux_getElem?_some _ 1 t (1 + r) hmap
  refine ⟨p - 1, ?_⟩
  simp only [cumulative_return, cumprodSkipna, List.getElem?_map, hp]
  rfl

/-- Claim C4: for a strategy-return series of defined per-period returns each
greater than -1, every entry of the cumulative-return column is defined; the
drawdown column computed by source line 52 agrees with the specified formula
`1 - (1 + cumret_t) / (max over s ≤ t of (1 + cumret_s))`; every drawdown
value is nonnegative and is zero exactly at the indices where the cumulative
return attains its running maximum (a new equity high); and the returned Max
Drawdown bounds every drawdown value from above. -/
theorem claim4_drawdown (rets : List (Option ℚ))
    (hdef : ∀ o ∈ rets, ∃ r : ℚ, o = some r ∧ -1 < r) :
    (∀ t, t < rets.length → ∃ c, (cumulative_return rets)[t]? = some (some c)) ∧
    (∀ (t : ℕ) (c : ℚ), (cumulative_return rets)[t]? = some (some c) →
      (drawdown rets)[t]? =
        some (some (1 - (1 + c) / peak (cumulative_return rets) t)) ∧
      0 ≤ 1 - (1 + c) / peak (cumulative_return rets) t ∧
      (1 - (1 + c) / peak (cumulative_return rets) t = 0 ↔
        listMaxSkipna ((cumulative_return rets).take (t + 1)) = some c)) ∧
    (∀ D : ℚ, max_drawdown rets = some D →
      ∀ (t : ℕ) (q : ℚ), (drawdown rets)[t]? = some (some q) → q ≤ D) := by
  have hdef' : ∀ o ∈ rets, ∀ r : ℚ, o = some r → -1 < r := by
    intro o ho r hr
    obtain ⟨r', hr', hgt⟩ := hdef o ho
    rw [hr] at hr'
    simp only [Option.some.injEq] at hr'
    rw [hr']; exact hgt
  have hpos := cumulative_return_pos rets hdef'
  refine ⟨cumulative_return_defined rets hdef, ?_, ?_⟩
  · intro t c hc
    -- the running maximum at a defined index
    have htake : ((cumulative_return rets).take (t + 1))[t]? = some (some c) := by
      rw [List.getElem?_take_of_lt (Nat.lt_succ_self t)]
      exact hc
    obtain ⟨M, hM, hcM⟩ := le_listMaxSkipna _ t c htake
    have hmemM : some M ∈ cumulative_return rets :=
      List.take_subset _ _ (listMaxSkipna_mem _ M hM)
    have hMpos : 0 < 1 + M := hpos (some M) hmemM M rfl
    have hcpos : 0 < 1 + c := hpos (some c) (List.getElem?_mem hc) c rfl
    have hpeak : peak (cumulative_return rets) t = 1 + M := by
      simp only [peak, listMaxSkipna_map_add_one, hM]
      rfl
    have hcmax : (cummaxSkipna (cumulative_return rets))[t]? = some (some M) := by
      rw [cummaxSkipna, cummaxAux_getElem?_some _ none t c hc, hM]
      rfl
    have hdd : (drawdown rets)[t]? =
        some (some (1 - (1 + c) / (1 + M))) := by
      simp only [drawdown]
      rw [List.getElem?_zipWith_eq_some]
      exact ⟨some c, some M, hc, hcmax, rfl⟩
    have hle : 1 + c ≤ 1 + M := by linarith
    refine ⟨by rw [hpeak]; exact hdd, ?_, ?_⟩
    · rw [hpeak]
      have : (1 + c) / (1 + M) ≤ 1 := (div_le_one hMpos).mpr hle
      linarith
    · rw [hpeak]
      constructor
      · intro h0
        have : (1 + c) / (1 + M) = 1 := by linarith
        have : 1 + c = 1 + M := by
          rw [div_eq_one_iff_eq (ne_of_gt hMpos)] at this
          exact this
        have hcM' : c = M := by linarith
        rw [hM, hcM']
      · intro hMc
        rw [hM] at hMc
        simp only [Option.some.injEq] at hMc
        rw [← hMc]
        rw [div_self (ne_of_gt hMpos)]
        ring
  · intro D hD t q hq
    obtain ⟨M, hM, hqM⟩ := le_listMaxSkipna _ t q hq
    rw [max_drawdown] at hD
    rw [hD] at hM
    simp only [Option.some.injEq] at hM
    rw [hM]; exact hqM

/-- Witness for C4 at the concrete return series `[1/2, -1/4]`. -/
theorem claim4_drawdown_witness :
    ∃ c, (cumulative_return [some (1/2), some (-1/4)])[1]? = some (some c) :=
  (claim4_drawdown [some (1/2), some (-1/4)]
    (by intro o ho; simp at ho; rcases ho with h | h <;> subst h <;> norm_num)).1 1 (by norm_num)

@[simp] lemma cumprodAux_length (acc : ℚ) (xs : List (Option ℚ)) :
    (cumprodAux acc xs).length = xs.length := by
  induction xs generalizing acc with
  | nil => rfl
  | cons x xs ih => cases x <;> simp [cumprodAux, ih]

@[simp] lemma cumulative_return_length (rets : List (Option ℚ)) :
    (cumulative_return rets).length = rets.length := by
  simp [cumulative_return, cumprodSkipna]

/-- Claim C3: for a nonempty return series at daily frequency,
`return_metrics` returns a tuple whose CAGR, annualized volatility and Sharpe
ratio are exactly the spec formulas: CAGR from equity 100 to
`100 × (1 + total return)` over `T / 365` years, volatility as the standard
deviation of the price column times `sqrt 365`, and Sharpe as their quotient
with no risk-free-rate subtraction. -/
theorem claim3_metric_formulas (prices : List ℚ) (rets : List (Option ℚ))
    (hT : 1 ≤ rets.length) :
    ∃ m, return_metrics prices rets Freq.daily = some m ∧
      m.annualized_return = cagrSpec rets ∧
      m.annualized_vol = volSpec prices ∧
      m.sharpe = FP.div (cagrSpec rets) (volSpec prices) := by
  have hne : cumulative_return rets ≠ [] := by
    intro hnil
    have := congrArg List.length hnil
    simp only [cumulative_return_length, List.length_nil] at this
    omega
  cases hlast : (cumulative_return rets).getLast? with
  | none => exact absurd (List.getLast?_eq_none_iff.mp hlast) hne
  | some total =>
    have hAR : FP.sub (FP.rpow (FP.div (FP.mul (FP.val 100)
        (FP.add (FP.val 1) (ofOptQ total))) (FP.val 100))
          (1 / ((rets.length : ℝ) / ((365 : ℕ) : ℝ)))) (FP.val 1) = cagrSpec rets := by
      simp only [cagrSpec, finalEquity, total_cumulative_return, hlast, Option.join]
      norm_num
    have hvol : FP.mul (seriesStd prices) (FP.val (Real.sqrt ((365 : ℕ) : ℝ))) =
        volSpec prices := by
      simp only [volSpec]
      norm_num
    obtain ⟨m, hm⟩ : ∃ m, return_metrics prices rets Freq.daily = some m := by
      simp only [return_metrics, hlast]
      exact ⟨_, rfl⟩
    have hm' := hm
    simp only [return_metrics, hlast, Option.some.injEq] at hm'
    refine ⟨m, hm, ?_, ?_, ?_⟩
    · rw [← hm']
      simpa only [freqH] using hAR
    · rw [← hm']
      simpa only [freqH] using hvol
    · rw [← hm']
      show FP.div _ _ = _
      rw [← hAR, ← hvol]
      simp only [freqH]

/-- Witness for C3 at the concrete frame `prices = [5]`, `rets = [none]`. -/
theorem claim3_metric_formulas_witness :
    ∃ m, return_metrics [5] [none] Freq.daily = some m ∧
      m.annualized_return = cagrSpec [none] ∧
      m.annualized_vol = volSpec [5] ∧
      m.sharpe = FP.div (cagrSpec [none]) (volSpec [5]) :=
  claim3_metric_formulas [5] [none] (by norm_num)

@[simp] lemma ofOptQ_none : ofOptQ none = FP.nan := rfl

@[simp] lemma ofOptQ_some (q : ℚ) : ofOptQ (some q) = FP.val (q : ℝ) := rfl

@[simp] lemma FP.add_val_val (a b : ℝ) : FP.add (FP.val a) (FP.val b) = FP.val (a + b) := rfl

@[simp] lemma FP.sub_val_val (a b : ℝ) : FP.sub (FP.val a) (FP.val b) = FP.val (a - b) := rfl

@[simp] lemma FP.mul_val_val (a b : ℝ) : FP.mul (FP.val a) (FP.val b) = FP.val (a * b) := rfl

@[simp] lemma FP.add_nan_left (x : FP) : FP.add FP.nan x = FP.nan := by cases x <;> rfl

@[simp] lemma FP.add_nan_right (x : FP) : FP.add x FP.nan = FP.nan := by cases x <;> rfl

@[simp] lemma FP.sub_nan_left (x : FP) : FP.sub FP.nan x = FP.nan := by cases x <;> rfl

@[simp] lemma FP.sub_nan_right (x : FP) : FP.sub x FP.nan = FP.nan := by cases x <;> rfl

@[simp] lemma FP.mul_nan_left (x : FP) : FP.mul FP.nan x = FP.nan := by cases x <;> rfl

@[simp] lemma FP.mul_nan_right (x : FP) : FP.mul x FP.nan = FP.nan := by cases x <;> rfl

@[simp] lemma FP.div_nan_left (x : FP) : FP.div FP.nan x = FP.nan := by cases x <;> rfl

@[simp] lemma FP.div_nan_right (x : FP) : FP.div x FP.nan = FP.nan := by cases x <;> rfl

@[simp] lemma FP.rpow_nan (e : ℝ) : FP.rpow FP.nan e = FP.nan := rfl

lemma FP.div_val_val (a b : ℝ) (hb : b ≠ 0) :
    FP.div (FP.val a) (FP.val b) = FP.val (a / b) := by
  simp [FP.div, hb]

lemma FP.div_val_zero_pos (a : ℝ) (ha : 0 < a) :
    FP.div (FP.val a) (FP.val 0) = FP.inf true := by
  simp [FP.div, ha, ha.ne']

lemma FP.div_val_zero_zero : FP.div (FP.val 0) (FP.val 0) = FP.nan := by
  simp [FP.div]

lemma FP.rpow_val_of (b e : ℝ) (hb : ¬b < 0) (h0 : ¬(b = 0 ∧ e < 0)) :
    FP.rpow (FP.val b) e = FP.val (b ^ e) := by
  simp [FP.rpow, hb, h0]

/-- The annualized-return expression of source line 82, evaluated on a defined
total return whose equity factor `1 + total` is nonnegative. -/
lemma annualized_return_val (total : ℚ) (e : ℝ) (h : 0 ≤ 1 + (total : ℝ))
    (h0 : ¬(1 + (total : ℝ) = 0 ∧ e < 0)) :
    FP.sub (FP.rpow (FP.div (FP.mul (FP.val 100)
        (FP.add (FP.val 1) (ofOptQ (some total)))) (FP.val 100)) e) (FP.val 1) =
      FP.val ((1 + (total : ℝ)) ^ e - 1) := by
  simp only [ofOptQ_some, FP.add_val_val, FP.mul_val_val]
  rw [FP.div_val_val _ _ (by norm_num : (100 : ℝ) ≠ 0)]
  rw [show (100 : ℝ) * (1 + (total : ℝ)) / 100 = 1 + (total : ℝ) by ring]
  rw [FP.rpow_val_of _ _ (not_lt.mpr h) h0, FP.sub_val_val]

lemma seriesStd_replicate (n : ℕ) (c : ℚ) (hn : 2 ≤ n) :
    seriesStd (List.replicate n c) = FP.val 0 := by
  rw [seriesStd, if_neg (by simp only [List.length_replicate]; omega)]
  have hn0 : ((n : ℝ)) ≠ 0 := Nat.cast_ne_zero.mpr (by omega)
  have hmean : ((List.replicate n c).map (fun q : ℚ => (q : ℝ))).sum /
      ((List.replicate n c).length : ℝ) = (c : ℝ) := by
    rw [List.map_replicate, List.sum_replicate, nsmul_eq_mul, List.length_replicate]
    field_simp
  have hdev : (List.replicate n c).map (fun q : ℚ => ((q : ℝ) -
      ((List.replicate n c).map (fun q : ℚ => (q : ℝ))).sum /
        ((List.replicate n c).length : ℝ)) ^ 2) = List.replicate n 0 := by
    rw [List.map_replicate]
    congr 1
    rw [hmean]
    ring
  rw [hdev, List.sum_replicate, smul_zero, zero_div, Real.sqrt_zero]

lemma FP.div_val_zero_cases (x : FP) :
    FP.div x (FP.val 0) = FP.nan ∨ FP.div x (FP.val 0) = FP.inf true ∨
      FP.div x (FP.val 0) = FP.inf false := by
  cases x with
  | nan => left; rfl
  | inf s =>
    cases s
    · right; right; simp [FP.div]
    · right; left; simp [FP.div]
  | val a =>
    rcases lt_trichotomy a 0 with h | h | h
    · right; right; simp [FP.div, h, h.ne, not_lt.mpr h.le]
    · left; simp [FP.div, h]
    · right; left; simp [FP.div, h, h.ne']

/-- Counterexample for claim C7: on the frame with constant prices
`[1, 1, 1]` and strategy returns `[1/10, 1/10, 1/10]`, the annualized
volatility is exactly 0, yet `return_metrics` does not fail and produces no
NaN or diagnostic for the Sharpe ratio: it returns an ordinary tuple whose
Sharpe ratio is `+∞`. -/
theorem claim7_counterexample :
    (return_metrics [1, 1, 1] [some (1/10), some (1/10), some (1/10)] Freq.daily).map
        Metrics.annualized_vol = some (FP.val 0) ∧
    (return_metrics [1, 1, 1] [some (1/10), some (1/10), some (1/10)] Freq.daily).map
        Metrics.sharpe = some (FP.inf true) := by
  have hcum : cumulative_return [some (1/10), some (1/10), some (1/10)] =
      [some (1/10), some (21/100), some (331/1000)] := by
    norm_num [cumulative_return, cumprodSkipna, cumprodAux]
  have hlast : (cumulative_return [some (1/10), some (1/10), some (1/10)]).getLast? =
      some (some (331/1000)) := by
    rw [hcum]; rfl
  have hstd : seriesStd [1, 1, 1] = FP.val 0 := by
    rw [show ([1, 1, 1] : List ℚ) = List.replicate 3 1 from rfl,
      seriesStd_replicate 3 1 (by norm_num)]
  have hvol : FP.mul (seriesStd [1, 1, 1])
      (FP.val (Real.sqrt ((365 : ℕ) : ℝ))) = FP.val 0 := by
    rw [hstd, FP.mul_val_val, zero_mul]
  constructor
  · simp only [return_metrics, hlast, freqH, Option.map_some']
    exact congrArg some hvol
  · simp only [return_metrics, hlast, freqH, Option.map_some']
    rw [annualized_return_val (331/1000) _ (by push_cast; norm_num)
      (by push_cast; norm_num), hvol]
    have hgt : (1 : ℝ) < (1 + ((331/1000 : ℚ) : ℝ)) ^
        (1 / ((([some (1/10), some (1/10), some (1/10)] :
          List (Option ℚ)).length : ℝ) / ((365 : ℕ) : ℝ))) := by
      rw [Real.one_lt_rpow_iff_of_pos (by push_cast; norm_num)]
      left
      exact ⟨by push_cast; norm_num, by push_cast; norm_num⟩
    rw [FP.div_val_zero_pos _ (by linarith)]

/-- Claim C7 as amended: `return_metrics` does not fail with a diagnostic.
With zero observations it raises an uncaught `IndexError`; with a price
column of fewer than two observations it returns an ordinary tuple whose
annualized volatility and Sharpe ratio are plain `NaN`; and whenever the
annualized volatility is 0 it returns an ordinary tuple whose Sharpe ratio is
`NaN` or a signed infinity. -/
theorem claim7_amended :
    (∀ (prices : List ℚ) (f : Freq), return_metrics prices [] f = none) ∧
    (∀ (prices : List ℚ) (rets : List (Option ℚ)) (m : Metrics),
      return_metrics prices rets Freq.daily = some m → prices.length < 2 →
      m.annualized_vol = FP.nan ∧ m.sharpe = FP.nan) ∧
    (∀ (prices : List ℚ) (rets : List (Option ℚ)) (m : Metrics),
      return_metrics prices rets Freq.daily = some m → m.annualized_vol = FP.val 0 →
      m.sharpe = FP.nan ∨ m.sharpe = FP.inf true ∨ m.sharpe = FP.inf false) := by
  refine ⟨fun prices f => rfl, ?_, ?_⟩
  · intro prices rets m hm hlen
    simp only [return_metrics] at hm
    cases hlast : (cumulative_return rets).getLast? with
    | none => rw [hlast] at hm; exact absurd hm (by simp)
    | some total =>
      rw [hlast] at hm
      simp only [Option.some.injEq] at hm
      subst hm
      dsimp only
      have hstd : seriesStd prices = FP.nan := by rw [seriesStd, if_pos hlen]
      rw [hstd, FP.mul_nan_left, FP.div_nan_right]
      exact ⟨rfl, rfl⟩
  · intro prices rets m hm hvol
    simp only [return_metrics] at hm
    cases hlast : (cumulative_return rets).getLast? with
    | none => rw [hlast] at hm; exact absurd hm (by simp)
    | some total =>
      rw [hlast] at hm
      simp only [Option.some.injEq] at hm
      subst hm
      dsimp only at hvol ⊢
      rw [hvol]
      exact FP.div_val_zero_cases _

/-- Witness for the amended C7: the empty frame raises; a one-row frame
yields NaN volatility and Sharpe; a zero-volatility two-row frame yields a
non-finite Sharpe. -/
theorem claim7_amended_witness :
    return_metrics ([] : List ℚ) [] Freq.daily = none ∧
    ((Metrics.mk FP.nan FP.nan FP.nan FP.nan none).annualized_vol = FP.nan ∧
      (Metrics.mk FP.nan FP.nan FP.nan FP.nan none).sharpe = FP.nan) ∧
    ((Metrics.mk FP.nan FP.nan (FP.val 0) FP.nan none).sharpe = FP.nan ∨
      (Metrics.mk FP.nan FP.nan (FP.val 0) FP.nan none).sharpe = FP.inf true ∨
      (Metrics.mk FP.nan FP.nan (FP.val 0) FP.nan none).sharpe = FP.inf false) := by
  have hm1 : return_metrics [5] [none] Freq.daily =
      some ⟨FP.nan, FP.nan, FP.nan, FP.nan, none⟩ := rfl
  have hm2 : return_metrics [1, 1] [none, none] Freq.daily =
      some ⟨FP.nan, FP.nan, FP.val 0, FP.nan, none⟩ := by
    have hstd : seriesStd [1, 1] = FP.val 0 := by
      rw [show ([1, 1] : List ℚ) = List.replicate 2 1 from rfl,
        seriesStd_replicate 2 1 (by norm_num)]
    have hvol : FP.mul (seriesStd [1, 1])
        (FP.val (Real.sqrt ((365 : ℕ) : ℝ))) = FP.val 0 := by
      rw [hstd, FP.mul_val_val, zero_mul]
    simp only [return_metrics, freqH]
    rw [show (cumulative_return [none, none]).getLast? = some none from rfl]
    simp only [ofOptQ_none, FP.add_nan_right, FP.mul_nan_right, FP.div_nan_left,
      FP.rpow_nan, FP.sub_nan_left]
    rw [hvol, show max_drawdown [none, none] = none from rfl]
  exact ⟨claim7_amended.1 [] Freq.daily,
    claim7_amended.2.1 [5] [none] _ hm1 (by norm_num),
    claim7_amended.2.2 [1, 1] [none, none] _ hm2 rfl⟩

lemma FP.lt_irrefl (a : FP) : ¬FP.lt a a := by
  cases a with
  | nan => exact fun h => h
  | inf s =>
    rintro ⟨h1, h2⟩
    rw [h1] at h2
    cases h2
  | val a => exact fun h => absurd rfl (ne_of_lt h)

lemma FP.lt_asymm {a b : FP} (h : FP.lt a b) : a ≠ b := by
  intro heq
  rw [heq] at h
  exact FP.lt_irrefl b h

lemma FP.lt_trans {a b c : FP} (h1 : FP.lt a b) (h2 : FP.lt b c) : FP.lt a c := by
  cases a <;> cases b <;> cases c <;> simp_all [FP.lt]
  exact h1.trans h2

/-- Claim C9: `trend_following` resets the global position state, so its
output (and the final state) is independent of the incoming global state;
running it again immediately reproduces the same frame bit for bit; the input
price column is carried unchanged into the output copy; and the window chosen
by `grid_search` does not depend on the incoming global state either. -/
theorem claim9_determinism (g g' : ℕ) (prices data : List ℚ) (w : ℕ)
    (wr : List ℕ) :
    trend_following g prices w = trend_following g' prices w ∧
    (trend_following g prices w).1.prices = prices ∧
    (trend_following ((trend_following g prices w).2) prices w).1 =
      (trend_following g prices w).1 ∧
    (grid_search g data wr).map (fun r => r.1) =
      (grid_search g' data wr).map (fun r => r.1) := by
  refine ⟨rfl, rfl, rfl, ?_⟩
  cases wr with
  | nil => rfl
  | cons w0 ws =>
    simp only [grid_search, gridLoop]
    rw [show gridStep data (((none, FP.inf false), []), g) w0 =
      gridStep data (((none, FP.inf false), []), g') w0 from rfl]

lemma selectLoop_invariant (f : ℕ → FP) (wr : List ℕ) :
    ∀ (o₀ : Option ℕ) (m₀ : FP),
      (∀ w ∈ wr, ¬FP.lt (selectLoop f (o₀, m₀) wr).2 (f w)) ∧
      (((selectLoop f (o₀, m₀) wr).2 = m₀ ∧ (selectLoop f (o₀, m₀) wr).1 = o₀ ∧
          ∀ w ∈ wr, ¬FP.lt m₀ (f w)) ∨
        (FP.lt m₀ (selectLoop f (o₀, m₀) wr).2 ∧
          ∃ w1, (selectLoop f (o₀, m₀) wr).1 = some w1 ∧
            f w1 = (selectLoop f (o₀, m₀) wr).2 ∧ w1 ∈ wr ∧
            firstWith f ((selectLoop f (o₀, m₀) wr).2) wr = some w1)) := by
  induction wr with
  | nil =>
    intro o₀ m₀
    exact ⟨by simp, Or.inl ⟨rfl, rfl, by simp⟩⟩
  | cons w ws ih =>
    intro o₀ m₀
    by_cases hw : FP.lt m₀ (f w)
    · have hrec := ih (some w) (f w)
      simp only [selectLoop, if_pos hw]
      rcases hrec.2 with ⟨hm, ho, hall⟩ | ⟨hlt, w1, ho, hfw, hmem, hfirst⟩
      · refine ⟨?_, Or.inr ⟨by rw [hm]; exact hw, w, ho, by rw [hm],
          List.mem_cons_self _ _, ?_⟩⟩
        · intro w' hw'
          rcases List.mem_cons.mp hw' with rfl | hw'
          · rw [hm]; exact FP.lt_irrefl _
          · exact hrec.1 w' hw'
        · simp only [firstWith]
          rw [hm, if_pos rfl]
      · refine ⟨?_, Or.inr ⟨FP.lt_trans hw hlt, w1, ho, hfw,
          List.mem_cons_of_mem _ hmem, ?_⟩⟩
        · intro w' hw'
          rcases List.mem_cons.mp hw' with rfl | hw'
          · intro hcon
            exact FP.lt_irrefl _ (FP.lt_trans hlt hcon)
          · exact hrec.1 w' hw'
        · simp only [firstWith]
          rw [if_neg, hfirst]
          intro heq
          exact FP.lt_asymm hlt heq
    · have hrec := ih o₀ m₀
      simp only [selectLoop, if_neg hw]
      rcases hrec.2 with ⟨hm, ho, hall⟩ | ⟨hlt, w1, ho, hfw, hmem, hfirst⟩
      · refine ⟨?_, Or.inl ⟨hm, ho, ?_⟩⟩
        · intro w' hw'
          rcases List.mem_cons.mp hw' with rfl | hw'
          · rw [hm]; exact hw
          · exact hrec.1 w' hw'
        · intro w' hw'
          rcases List.mem_cons.mp hw' with rfl | hw'
          · exact hw
          · exact hall w' hw'
      · refine ⟨?_, Or.inr ⟨hlt, w1, ho, hfw, List.mem_cons_of_mem _ hmem, ?_⟩⟩
        · intro w' hw'
          rcases List.mem_cons.mp hw' with rfl | hw'
          · intro hcon
            exact hw (FP.lt_trans hlt hcon)
          · exact hrec.1 w' hw'
        · simp only [firstWith]
          rw [if_neg, hfirst]
          intro heq
          rw [← heq] at hlt
          exact hw hlt

lemma return_metrics_isSome (prices : List ℚ) (rets : List (Option ℚ))
    (f : Freq) (h : rets ≠ []) : ∃ m, return_metrics prices rets f = some m := by
  have hne : cumulative_return rets ≠ [] := by
    intro hnil
    have := congrArg List.length hnil
    simp only [cumulative_return_length, List.length_nil] at this
    exact h (List.length_eq_zero.mp this)
  cases hlast : (cumulative_return rets).getLast? with
  | none => exact absurd (List.getLast?_eq_none_iff.mp hlast) hne
  | some total =>
    simp only [return_metrics, hlast]
    exact ⟨_, rfl⟩

lemma gridLoop_fst (data : List ℚ) (hdata : data ≠ []) (wr : List ℕ) :
    ∀ (os : Option ℕ) (ms : FP) (rs : List (ℕ × FP)) (g : ℕ),
      (gridLoop data (((os, ms), rs), g) wr).map (fun st => st.1.1) =
        some (selectLoop (objectiveD data) (os, ms) wr) := by
  induction wr with
  | nil =>
    intro os ms rs g
    simp [gridLoop, selectLoop]
  | cons w ws ih =>
    intro os ms rs g
    have hrets : (trend_following g data w).1.strategyCol ≠ [] := by
      intro hnil
      have := congrArg List.length hnil
      simp only [strategyCol_length, List.length_nil] at this
      exact hdata (List.length_eq_zero.mp this)
    obtain ⟨m, hm⟩ := return_metrics_isSome data _ Freq.daily hrets
    have hobj : objectiveD data w = FP.div m.sharpe (ofOptQ m.max_dd) := by
      simp only [objectiveD, candidate_objective]
      rw [show trend_following 0 data w = trend_following g data w from rfl, hm]
      rfl
    simp only [gridLoop, gridStep]
    rw [hm]
    simp only [Option.map_some']
    by_cases hlt : FP.lt ms (FP.div m.sharpe (ofOptQ m.max_dd))
    · rw [if_pos hlt]
      rw [ih (some w) (FP.div m.sharpe (ofOptQ m.max_dd)) _ _]
      simp only [selectLoop]
      rw [hobj, if_pos hlt]
    · rw [if_neg hlt]
      rw [ih os ms _ _]
      simp only [selectLoop]
      rw [hobj, if_neg hlt]

/-- Claim C5 as amended: the default candidate range is 10 to 200 inclusive
in steps of 10; the objective of a candidate is Sharpe / MaxDrawdown; and the
function returns the single window whose objective is the maximum under the
strictly-greater comparison, ties keeping the earliest candidate — but only
that window: the list of (window, objective) pairs accumulated in `results`
is discarded by `return optimal_window` and is not part of the return
value. -/
theorem claim5_amended :
    default_window_range = [10, 20, 30, 40, 50, 60, 70, 80, 90, 100, 110, 120,
      130, 140, 150, 160, 170, 180, 190, 200] ∧
    (∀ (data : List ℚ) (wr : List ℕ) (w1 gf : ℕ),
      grid_search 0 data wr = some (some w1, gf) →
      w1 ∈ wr ∧ (∀ w ∈ wr, ¬FP.lt (objectiveD data w1) (objectiveD data w)) ∧
      firstWith (objectiveD data) (objectiveD data w1) wr = some w1) := by
  constructor
  · rfl
  · intro data wr w1 gf hgs
    have hwr : wr ≠ [] := by
      intro h
      subst h
      simp [grid_search, gridLoop] at hgs
    have hdata : data ≠ [] := by
      intro h
      subst h
      obtain ⟨w0, ws, rfl⟩ := List.exists_cons_of_ne_nil hwr
      have hstrat : (trend_following 0 ([] : List ℚ) w0).1.strategyCol = [] := by
        have hl := strategyCol_length 0 ([] : List ℚ) w0
        simp only [List.length_nil] at hl
        exact List.length_eq_zero.mp hl
      have hstep : gridStep [] (((none, FP.inf false), []), 0) w0 = none := by
        simp only [gridStep]
        rw [hstrat, show return_metrics [] ([] : List (Option ℚ)) Freq.daily = none from rfl]
        rfl
      simp only [grid_search, gridLoop] at hgs
      rw [hstep] at hgs
      simp at hgs
    have hbr := gridLoop_fst data hdata wr none (FP.inf false) [] 0
    simp only [grid_search] at hgs
    cases hloop : gridLoop data (((none, FP.inf false), []), 0) wr with
    | none =>
      rw [hloop] at hgs
      simp at hgs
    | some stf =>
      rw [hloop] at hgs hbr
      simp only [Option.map_some', Option.some.injEq, Prod.mk.injEq] at hgs hbr
      have hR1 : (selectLoop (objectiveD data) (none, FP.inf false) wr).1 = some w1 := by
        rw [← hbr]
        exact hgs.1
      have hinv := selectLoop_invariant (objectiveD data) wr none (FP.inf false)
      rcases hinv.2 with ⟨hm, ho, hall⟩ | ⟨hlt, wx, ho, hfw, hmem, hfirst⟩
      · rw [ho] at hR1
        exact absurd hR1 (by simp)
      · rw [ho] at hR1
        simp only [Option.some.injEq] at hR1
        subst hR1
        refine ⟨hmem, ?_, ?_⟩
        · intro w hw
          rw [hfw]
          exact hinv.1 w hw
        · rw [hfw]
          exact hfirst

lemma zip3_mem (r : ℚ × Option ℚ × ℚ) :
    ∀ (as : List ℚ) (bs : List (Option ℚ)) (cs : List ℚ), r ∈ zip3 as bs cs →
      r.1 ∈ as ∧ r.2.1 ∈ bs := by
  intro as
  induction as with
  | nil => intro bs cs h; simp [zip3] at h
  | cons a as ih =>
    intro bs cs h
    cases bs with
    | nil => simp [zip3] at h
    | cons b bs =>
      cases cs with
      | nil => simp [zip3] at h
      | cons c cs =>
        simp only [zip3, List.mem_cons] at h
        rcases h with h | h
        · subst h
          exact ⟨List.mem_cons_self _ _, List.mem_cons_self _ _⟩
        · obtain ⟨h1, h2⟩ := ih bs cs h
          exact ⟨List.mem_cons_of_mem _ h1, List.mem_cons_of_mem _ h2⟩

lemma sum_of_mem_const (c : ℚ) : ∀ l : List ℚ, (∀ x ∈ l, x = c) →
    l.sum = l.length * c := by
  intro l
  induction l with
  | nil => intro _; simp
  | cons x xs ih =>
    intro h
    have hx : x = c := h x (List.mem_cons_self _ _)
    rw [List.sum_cons, ih (fun y hy => h y (List.mem_cons_of_mem _ hy)), hx,
      List.length_cons]
    push_cast
    ring

lemma rollingMean_replicate_mem (w n : ℕ) (c : ℚ) :
    ∀ o ∈ rollingMean w (List.replicate n c), o = none ∨ o = some c := by
  intro o ho
  simp only [rollingMean, List.mem_map, List.length_replicate] at ho
  obtain ⟨t, htr, rfl⟩ := ho
  have htn : t < n := List.mem_range.mp htr
  by_cases hcond : 1 ≤ w ∧ w ≤ t + 1
  · right
    rw [if_pos hcond]
    have hslice : ∀ x ∈ ((List.replicate n c).take (t + 1)).drop (t + 1 - w), x = c := by
      intro x hx
      exact List.eq_of_mem_replicate (List.take_subset _ _ (List.drop_subset _ _ hx))
    have hw0 : (w : ℚ) ≠ 0 := Nat.cast_ne_zero.mpr (by omega)
    have hlen : (((List.replicate n c).take (t + 1)).drop (t + 1 - w)).length = w := by
      rw [List.length_drop, List.length_take, List.length_replicate]
      omega
    rw [sum_of_mem_const c _ hslice, hlen, mul_comm, mul_div_assoc,
      div_self hw0, mul_one]
  · left
    rw [if_neg hcond]

lemma update_position_zero_of (c e : ℚ) (s : Option ℚ)
    (h : s = none ∨ s = some c) : update_position 0 c s e = 0 := by
  rcases h with rfl | rfl
  · rw [update_position_zero, if_neg]
    rintro ⟨h1, _⟩
    exact h1
  · rw [update_position_zero, if_neg]
    rintro ⟨h1, _⟩
    exact absurd h1 (lt_irrefl c)

lemma applySignals_zero_of (rows : List (ℚ × Option ℚ × ℚ))
    (h : ∀ r ∈ rows, r.2.1 = none ∨ r.2.1 = some r.1) :
    applySignals 0 rows = List.replicate rows.length 0 := by
  induction rows with
  | nil => rfl
  | cons r rows ih =>
    obtain ⟨c, s, e⟩ := r
    have hr := h _ (List.mem_cons_self _ _)
    have hz : update_position 0 c s e = 0 := update_position_zero_of c e s hr
    simp [applySignals, hz, ih (fun r hr' => h r (List.mem_cons_of_mem _ hr')),
      List.replicate_succ]

lemma applySignals_replicate (c : ℚ) (n w : ℕ) :
    applySignals 0 (zip3 (List.replicate n c)
      (rollingMean w (List.replicate n c)) (ewmMean w (List.replicate n c))) =
      List.replicate n 0 := by
  rw [applySignals_zero_of]
  · rw [show (zip3 (List.replicate n c) (rollingMean w (List.replicate n c))
      (ewmMean w (List.replicate n c))).length = n from by
        rw [zip3_rows_length, List.length_replicate]]
  · intro r hr
    obtain ⟨h1, h2⟩ := zip3_mem r _ _ _ hr
    have hc : r.1 = c := List.eq_of_mem_replicate h1
    rcases rollingMean_replicate_mem w n c _ h2 with h | h
    · exact Or.inl h
    · right
      rw [h, hc]

lemma trend_following_replicate_snd (g : ℕ) (c : ℚ) (n w : ℕ) :
    (trend_following g (List.replicate n c) w).2 = 0 := by
  show (applySignals 0 (zip3 (List.replicate n c)
    (rollingMean w (List.replicate n c)) (ewmMean w (List.replicate n c)))).getLastD 0 = 0
  rw [applySignals_replicate]
  cases n with
  | zero => rfl
  | succ k => rw [List.replicate_succ', List.getLastD_concat]

lemma shift1_replicate_succ (k : ℕ) (x : ℚ) :
    shift1 (List.replicate (k + 1) x) = none :: List.replicate k (some x) := by
  show shift1 (x :: List.replicate k x) = _
  simp only [shift1]
  congr 1
  rw [show (x :: List.replicate k x) = List.replicate (k + 1) x from rfl,
    List.replicate_succ', List.dropLast_concat, List.map_replicate]

lemma pctAux_replicate (c : ℚ) (k : ℕ) :
    pctAux c (List.replicate k c) =
      List.replicate k (if c = 0 then none else some 0) := by
  induction k with
  | zero => rfl
  | succ k ih =>
    show pctAux c (c :: List.replicate k c) = _
    simp only [pctAux, ih, List.replicate_succ]
    congr 1
    split
    · rfl
    · rw [sub_self, zero_div]

lemma pctChange_replicate_succ (c : ℚ) (k : ℕ) :
    pctChange (List.replicate (k + 1) c) =
      none :: List.replicate k (if c = 0 then none else some 0) := by
  show pctChange (c :: List.replicate k c) = _
  simp only [pctChange, pctAux_replicate]

lemma zipWith_replicate_opt (f : Option ℚ → Option ℚ → Option ℚ)
    (a b : Option ℚ) : ∀ m, List.zipWith f (List.replicate m a)
      (List.replicate m b) = List.replicate m (f a b) := by
  intro m
  induction m with
  | zero => rfl
  | succ m ih => simp [List.replicate_succ, ih]

lemma strategyCol_replicate (g : ℕ) (c : ℚ) (k w : ℕ) :
    (trend_following g (List.replicate (k + 1) c) w).1.strategyCol =
      none :: List.replicate k (if c = 0 then none else some 0) := by
  show List.zipWith optMul (pctChange (List.replicate (k + 1) c))
    (shift1 ((applySignals 0 (zip3 (List.replicate (k + 1) c)
      (rollingMean w (List.replicate (k + 1) c))
      (ewmMean w (List.replicate (k + 1) c)))).map (fun n : ℕ => (n : ℚ)))) = _
  rw [applySignals_replicate, List.map_replicate,
    show ((0 : ℕ) : ℚ) = 0 from Nat.cast_zero, shift1_replicate_succ,
    pctChange_replicate_succ]
  simp only [List.zipWith_cons_cons]
  rw [zipWith_replicate_opt]
  congr 1
  split
  · rfl
  · simp [optMul]

lemma cumprodAux_replicate_none (a : ℚ) (m : ℕ) :
    cumprodAux a (List.replicate m none) = List.replicate m none := by
  induction m with
  | zero => rfl
  | succ m ih => simp [List.replicate_succ, cumprodAux, ih]

lemma cumprodAux_replicate_one (m : ℕ) :
    ∀ a : ℚ, cumprodAux a (List.replicate m (some 1)) = List.replicate m (some a) := by
  induction m with
  | zero => intro a; rfl
  | succ m ih =>
    intro a
    show cumprodAux a (some 1 :: List.replicate m (some 1)) = _
    simp only [cumprodAux, mul_one, ih, List.replicate_succ]

lemma cumulative_return_zero_rets (m : ℕ) :
    cumulative_return (none :: List.replicate m (some 0)) =
      none :: List.replicate m (some 0) := by
  simp only [cumulative_return, cumprodSkipna, List.map_cons, List.map_replicate,
    Option.map_none', Option.map_some']
  rw [show (1 : ℚ) + 0 = 1 from by norm_num]
  show (cumprodAux 1 (none :: List.replicate m (some 1))).map _ = _
  simp only [cumprodAux, cumprodAux_replicate_one, List.map_cons,
    List.map_replicate, Option.map_none', Option.map_some']
  rw [show (1 : ℚ) - 1 = 0 from by norm_num]

lemma cumulative_return_all_none (k : ℕ) :
    cumulative_return (List.replicate k none) = List.replicate k none := by
  simp only [cumulative_return, cumprodSkipna, List.map_replicate, Option.map_none']
  rw [cumprodAux_replicate_none, List.map_replicate]
  simp

lemma cummaxAux_replicate_same (x : ℚ) (m : ℕ) :
    cummaxAux (some x) (List.replicate m (some x)) = List.replicate m (some x) := by
  induction m with
  | zero => rfl
  | succ m ih =>
    show cummaxAux (some x) (some x :: List.replicate m (some x)) = _
    simp only [cummaxAux, max_self, ih, List.replicate_succ]

lemma cummaxSkipna_zero_rets (m : ℕ) :
    cummaxSkipna (none :: List.replicate m (some 0)) =
      none :: List.replicate m (some 0) := by
  show cummaxAux none (none :: List.replicate m (some 0)) = _
  simp only [cummaxAux]
  congr 1
  cases m with
  | zero => rfl
  | succ k =>
    show cummaxAux none (some 0 :: List.replicate k (some 0)) = _
    simp only [cummaxAux, cummaxAux_replicate_same, List.replicate_succ]

lemma listMaxSkipna_replicate_some (x : ℚ) (k : ℕ) :
    listMaxSkipna (List.replicate (k + 1) (some x)) = some x := by
  induction k with
  | zero => rfl
  | succ k ih =>
    rw [show List.replicate (k + 2) (some x) =
      some x :: List.replicate (k + 1) (some x) from rfl,
      listMaxSkipna_cons, ih]
    simp [omax]

lemma drawdown_zero_rets (m : ℕ) :
    drawdown (none :: List.replicate m (some 0)) =
      none :: List.replicate m (some 0) := by
  simp only [drawdown]
  rw [cumulative_return_zero_rets, cummaxSkipna_zero_rets]
  simp only [List.zipWith_cons_cons]
  rw [zipWith_replicate_opt]
  norm_num

lemma max_drawdown_zero_rets (k : ℕ) :
    max_drawdown (none :: List.replicate (k + 1) (some 0)) = some 0 := by
  rw [max_drawdown, drawdown_zero_rets, listMaxSkipna_cons,
    listMaxSkipna_replicate_some]
  rfl

lemma candidate_objective_replicate (c : ℚ) (n w : ℕ) (hn : 1 ≤ n) :
    candidate_objective (List.replicate n c) w = some FP.nan := by
  obtain ⟨k, rfl⟩ : ∃ k, n = k + 1 := ⟨n - 1, by omega⟩
  simp only [candidate_objective]
  rw [strategyCol_replicate]
  by_cases hc : c = 0
  · subst hc
    rw [if_pos rfl,
      show (none :: List.replicate k (none : Option ℚ)) =
        List.replicate (k + 1) none from rfl]
    simp only [return_metrics]
    rw [cumulative_return_all_none,
      show (List.replicate (k + 1) (none : Option ℚ)).getLast? = some none from by
        rw [List.replicate_succ', List.getLast?_concat]]
    simp only [Option.map_some', ofOptQ_none, FP.add_nan_right, FP.mul_nan_right,
      FP.div_nan_left, FP.rpow_nan, FP.sub_nan_left]
  · rw [if_neg hc]
    cases k with
    | zero =>
      show (return_metrics (List.replicate 1 c) [none] Freq.daily).map _ = _
      simp only [return_metrics]
      rw [show (cumulative_return [none]).getLast? = some none from rfl]
      simp only [Option.map_some', ofOptQ_none, FP.add_nan_right, FP.mul_nan_right,
        FP.div_nan_left, FP.rpow_nan, FP.sub_nan_left]
    | succ k2 =>
      simp only [return_metrics]
      rw [cumulative_return_zero_rets,
        show (none :: List.replicate (k2 + 1) (some (0 : ℚ))).getLast? =
          some (some 0) from by
            rw [show (none :: List.replicate (k2 + 1) (some (0 : ℚ))) =
              (none :: List.replicate k2 (some 0)) ++ [some 0] from by
                rw [List.replicate_succ', List.cons_append],
              List.getLast?_concat]]
      dsimp only
      rw [annualized_return_val 0 _ (by norm_num) (by norm_num),
        show ((1 : ℝ) + ((0 : ℚ) : ℝ)) = 1 from by norm_num, Real.one_rpow,
        sub_self, seriesStd_replicate (k2 + 2) c (by omega), FP.mul_val_val,
        zero_mul, FP.div_val_zero_zero, max_drawdown_zero_rets]
      simp only [Option.map_some', ofOptQ_some]
      rw [FP.div_nan_left]

lemma FP.not_lt_nan (a : FP) : ¬FP.lt a FP.nan := by
  cases a <;> exact fun h => h

/-- Claim C8: on any nonempty constant price series, every candidate's
objective is `NaN` (the zero-variance Sharpe is `0 / 0` or propagated `NaN`),
so no candidate ever survives the strictly-greater comparison: the search
terminates normally returning `None` ("no optimal window found") rather than
crashing or returning the first candidate. -/
theorem claim8_constant_prices (c : ℚ) (n : ℕ) (wr : List ℕ) (hn : 1 ≤ n) :
    grid_search 0 (List.replicate n c) wr = some (none, 0) ∧
    ∀ w ∈ wr, candidate_objective (List.replicate n c) w = some FP.nan := by
  refine ⟨?_, fun w _ => candidate_objective_replicate c n w hn⟩
  have hloop : ∀ (ws : List ℕ) (rs : List (ℕ × FP)),
      gridLoop (List.replicate n c) (((none, FP.inf false), rs), 0) ws =
        some (((none, FP.inf false), rs ++ ws.map (fun w => (w, FP.nan))), 0) := by
    intro ws
    induction ws with
    | nil => intro rs; simp [gridLoop]
    | cons w ws ih =>
      intro rs
      have hobj := candidate_objective_replicate c n w hn
      simp only [candidate_objective] at hobj
      rw [Option.map_eq_some'] at hobj
      obtain ⟨m, hm, hdiv⟩ := hobj
      simp only [gridLoop, gridStep]
      rw [hm]
      simp only [Option.map_some']
      rw [hdiv, if_neg (FP.not_lt_nan _), trend_following_replicate_snd, ih]
      simp

  simp only [grid_search]
  rw [hloop wr []]
  rfl

/-- Witness for C8 on the concrete constant series `[1, 1, 1]`. -/
theorem claim8_constant_prices_witness :
    grid_search 0 (List.replicate 3 (1 : ℚ)) [2] = some (none, 0) :=
  (claim8_constant_prices 1 3 [2] (by norm_num)).1

/-- Claim C6 as amended: a candidate with MaxDrawdown = 0 is excluded from
the maximum-tracking comparison only when its Sharpe ratio is 0 or `NaN`
(either makes the objective `0 / 0 = NaN`, which fails the strictly-greater
test); a `NaN`-objective candidate never displaces the running optimum and
the loop proceeds to the next candidate.  (When the Sharpe ratio is a nonzero
finite value or `±∞`, the objective is a signed infinity instead, and such a
candidate can win the comparison — see the counterexample.) -/
theorem claim6_amended :
    (∀ (data : List ℚ) (w : ℕ) (m : Metrics),
      return_metrics data (trend_following 0 data w).1.strategyCol Freq.daily = some m →
      m.max_dd = some 0 → (m.sharpe = FP.val 0 ∨ m.sharpe = FP.nan) →
      candidate_objective data w = some FP.nan) ∧
    (∀ (data : List ℚ) (st : ((Option ℕ × FP) × List (ℕ × FP)) × ℕ) (w : ℕ),
      candidate_objective data w = some FP.nan →
      gridStep data st w =
        some ((st.1.1, st.1.2 ++ [(w, FP.nan)]), (trend_following st.2 data w).2)) := by
  constructor
  · intro data w m hm hdd hsh
    simp only [candidate_objective, hm, Option.map_some']
    rw [hdd]
    rcases hsh with h | h <;> rw [h]
    · rw [ofOptQ_some, show ((0 : ℚ) : ℝ) = 0 from by norm_num,
        FP.div_val_zero_zero]
    · rw [FP.div_nan_left]
  · intro data st w hobj
    simp only [candidate_objective] at hobj
    rw [Option.map_eq_some'] at hobj
    obtain ⟨m, hm, hdiv⟩ := hobj
    simp only [gridStep]
    rw [show trend_following st.2 data w = trend_following 0 data w from rfl, hm]
    simp only [Option.map_some']
    rw [hdiv, if_neg (FP.not_lt_nan _)]

/-- Witness for the amended C6: on the constant series `[1, 1, 1]` the
candidate objective is `NaN` and the grid step leaves the running optimum
untouched. -/
theorem claim6_amended_witness :
    gridStep [1, 1, 1] (((none, FP.inf false), []), 0) 2 =
      some (((none, FP.inf false), [(2, FP.nan)]), 0) := by
  have hco : candidate_objective [1, 1, 1] 2 = some FP.nan := by
    rw [show ([1, 1, 1] : List ℚ) = List.replicate 3 1 from rfl]
    exact candidate_objective_replicate 1 3 2 (by norm_num)
  have h := claim6_amended.2 [1, 1, 1] (((none, FP.inf false), []), 0) 2 hco
  rw [h, show (trend_following ((((none : Option ℕ), FP.inf false),
      ([] : List (ℕ × FP))), 0).2 [1, 1, 1] 2).2 = 0 from by
    rw [show ([1, 1, 1] : List ℚ) = List.replicate 3 1 from rfl]
    exact trend_following_replicate_snd _ 1 3 2]
  simp

lemma strat5 : (trend_following 0 [1, 2, 3, 4, 5] 2).1.strategyCol =
    [none, some 0, some (1/2), some (1/3), some (1/4)] := by
  norm_num [trend_following, rollingMean, List.range_succ, ewmMean, ewmAux, zip3,
    applySignals, update_position, shift1, pctChange, pctAux, optMul]

lemma tf5_snd : (trend_following 0 [1, 2, 3, 4, 5] 2).2 = 1 := by
  norm_num [trend_following, rollingMean, List.range_succ, ewmMean, ewmAux, zip3,
    applySignals, update_position]

lemma cum5 : cumulative_return [none, some 0, some (1/2), some (1/3), some (1/4)] =
    [none, some 0, some (1/2), some 1, some (3/2)] := by
  norm_num [cumulative_return, cumprodSkipna, cumprodAux]

lemma maxdd5 : max_drawdown [none, some 0, some (1/2), some (1/3), some (1/4)] =
    some 0 := by
  norm_num [max_drawdown, drawdown, cumulative_return, cumprodSkipna, cumprodAux,
    cummaxSkipna, cummaxAux, listMaxSkipna, omax]

lemma std5 : seriesStd [1, 2, 3, 4, 5] = FP.val (Real.sqrt (5/2)) := by
  rw [seriesStd, if_neg (by norm_num)]
  norm_num

lemma rm5_exists : ∃ m, return_metrics [1, 2, 3, 4, 5]
    ((trend_following 0 [1, 2, 3, 4, 5] 2).1.strategyCol) Freq.daily = some m ∧
    FP.div m.sharpe (ofOptQ m.max_dd) = FP.inf true := by
  rw [strat5]
  have hlast : (cumulative_return
      [none, some 0, some (1/2), some (1/3), some (1/4)]).getLast? =
      some (some (3/2)) := by
    rw [cum5]
    rfl
  simp only [return_metrics, hlast, freqH]
  refine ⟨_, rfl, ?_⟩
  dsimp only
  rw [maxdd5, annualized_return_val (3/2) _ (by push_cast; norm_num)
    (by push_cast; norm_num), std5, FP.mul_val_val]
  have hV : (0 : ℝ) < Real.sqrt (5/2) * Real.sqrt ((365 : ℕ) : ℝ) :=
    mul_pos (Real.sqrt_pos.mpr (by norm_num)) (Real.sqrt_pos.mpr (by norm_num))
  have hA : (0 : ℝ) < (1 + ((3/2 : ℚ) : ℝ)) ^
      (1 / ((([none, some 0, some (1/2), some (1/3), some (1/4)] :
        List (Option ℚ)).length : ℝ) / ((365 : ℕ) : ℝ))) - 1 := by
    have hgt : (1 : ℝ) < (1 + ((3/2 : ℚ) : ℝ)) ^
        (1 / ((([none, some 0, some (1/2), some (1/3), some (1/4)] :
          List (Option ℚ)).length : ℝ) / ((365 : ℕ) : ℝ))) := by
      rw [Real.one_lt_rpow_iff_of_pos (by push_cast; norm_num)]
      left
      exact ⟨by push_cast; norm_num, by push_cast; norm_num⟩
    linarith
  rw [FP.div_val_val _ _ (ne_of_gt hV), ofOptQ_some,
    show ((0 : ℚ) : ℝ) = 0 from by norm_num,
    FP.div_val_zero_pos _ (div_pos hA hV)]

lemma gridLoop_eval_12345 :
    gridLoop [1, 2, 3, 4, 5] (((none, FP.inf false), []), 0) [2] =
      some (((some 2, FP.inf true), [(2, FP.inf true)]), 1) := by
  obtain ⟨m, hm, hobj⟩ := rm5_exists
  simp only [gridLoop, gridStep]
  rw [hm]
  simp only [Option.map_some']
  rw [hobj, if_pos (show FP.lt (FP.inf false) (FP.inf true) from ⟨rfl, rfl⟩)]
  rw [tf5_snd]
  simp [gridLoop]

lemma grid_eval_12345 : grid_search 0 [1, 2, 3, 4, 5] [2] = some (some 2, 1) := by
  simp only [grid_search]
  rw [gridLoop_eval_12345]
  rfl

/-- Counterexample for claim C5: the value `grid_search` returns is the bare
optimal window (together with the model's threading of the global position
variable) — the `results` list of (window, objective) pairs is built inside
the loop, as the second conjunct exhibits, but `return optimal_window`
(source line 117) discards it, so no such list is part of the return
value. -/
theorem claim5_counterexample :
    grid_search 0 [1, 2, 3, 4, 5] [2] = some (some 2, 1) ∧
    (gridLoop [1, 2, 3, 4, 5] (((none, FP.inf false), []), 0) [2]).map
      (fun st => st.1.2) = some [(2, FP.inf true)] := by
  refine ⟨grid_eval_12345, ?_⟩
  rw [gridLoop_eval_12345]
  rfl

/-- Witness for the amended C5 at the concrete search over `[1, 2, 3, 4, 5]`
with the single candidate window 2. -/
theorem claim5_amended_witness :
    (2 ∈ ([2] : List ℕ)) ∧
    firstWith (objectiveD [1, 2, 3, 4, 5]) (objectiveD [1, 2, 3, 4, 5] 2) [2] =
      some 2 := by
  have h := claim5_amended.2 [1, 2, 3, 4, 5] [2] 2 1 grid_eval_12345
  exact ⟨h.1, h.2.2⟩

/-- Counterexample for claim C6: on the rising series `[1, 2, 3, 4, 5]` with
candidate window 2 the backtest has MaxDrawdown exactly 0, yet the candidate
is not excluded: its Sharpe ratio is positive, its objective is `+∞`, and
`grid_search` returns it as the optimal window. -/
theorem claim6_counterexample :
    max_drawdown ((trend_following 0 [1, 2, 3, 4, 5] 2).1.strategyCol) = some 0 ∧
    grid_search 0 [1, 2, 3, 4, 5] [2] = some (some 2, 1) := by
  constructor
  · rw [strat5]
    exact maxdd5
  · exact grid_eval_12345
